import Mathlib

/-!
# Wordle clue engine and hard-mode validator

A shallow embedding of `game.go` and of the metrics and the simulation driver of
`main.go`.

Conventions of the embedding.

* A Go `string` is the list of its bytes (`List Nat`, every byte below 256).
* `uint8` and `uint32` values are natural numbers; every operation that can
  leave the range is followed by an explicit `% 256` or `% 2 ^ 32`.
* A fixed-size array `[n]T` is a function `Fin n → T`; an assignment to an
  element is `Function.update`.
* A function that can panic returns `Option`, with `none` for the panic; `guess`,
  which assigns to its receiver, returns the state that the call leaves and an
  optional result.
-/

namespace Wordle

/-! ## Constants and clues (`game.go` lines 5-17) -/

/-- The constant `length`. -/
abbrev length : Nat := 5

/-- The constant `letters`. -/
abbrev letters : Nat := 26

/-- The type `clue`, a `uint8` with four named values. -/
inductive clue where
  | unknown
  | gray
  | yellow
  | green
  deriving DecidableEq, Repr

/-! ## Letter index (`game.go` lines 36-58) -/

/-- The type `charIndex` (a `uint8`): low 5 bits are the position mask, high 3 bits the count. -/
abbrev charIndex : Type := Nat

/-- The type `index`, an array of 26 `charIndex`. -/
abbrev index : Type := Fin letters → charIndex

/-- The zero value of `index`. -/
def index.zero : index := fun _ => 0

/-- The byte subtraction `c - 'a'`, wrapping in `uint8`. -/
def letterOf (c : Nat) : Nat := (c + 256 - 97) % 256

/-- The loop of `newIndex`, from position `i` on: `ret[c-'a'] |= 1 << i` then
`ret[c-'a'] += 1 << length`; an index outside the array panics. -/
def newIndexLoop : Nat → List Nat → index → Option index
  | _, [], ret => some ret
  | i, c :: cs, ret =>
    if h : letterOf c < letters then
      let k : Fin letters := ⟨letterOf c, h⟩
      let ret1 := Function.update ret k (ret k ||| ((1 <<< i) % 256))
      let ret2 := Function.update ret1 k ((ret1 k + (1 <<< length)) % 256)
      newIndexLoop (i + 1) cs ret2
    else none

/-- The function `newIndex`. -/
def newIndex (word : List Nat) : Option index :=
  newIndexLoop 0 word index.zero

/-- The method `charIndex.count`. -/
def charIndex.count (ci : charIndex) : Nat := ci >>> length

/-- The method `charIndex.at`. -/
def charIndex.atPos (ci : charIndex) (i : Nat) : Bool :=
  (ci &&& ((1 <<< i) % 256)) != 0

/-! ## Game state (`game.go` lines 60-81) -/

/-- The struct `state`: the target, its index, and the two accumulators.
`clues[j]`: high 5 bits are (letter that was green)+1 or 0, low 26 bits the
letters that were yellow or gray. `counts[i]`: low 7 bits a count, high bit
set when the count is exact. -/
structure state where
  target : List Nat
  targetIndex : index
  clues : Fin length → Nat
  counts : Fin letters → Nat

/-- The function `newState`; it panics on a target whose length is not 5. -/
def newState (target : List Nat) : Option state :=
  if target.length ≠ length then none
  else
    match newIndex target with
    | none => none
    | some ti =>
      some { target := target, targetIndex := ti, clues := fun _ => 0, counts := fun _ => 0 }

/-! ## Scoring a guess (`game.go` lines 83-155) -/

/-- The variables that the loop of `guess` assigns: the local `result` and the
fields `s.clues` and `s.counts`. -/
structure guessVars where
  result : Fin length → clue
  clues : Fin length → Nat
  counts : Fin letters → Nat

/-- The statement `s.clues[j] |= 1 << i` (the shift is a `uint32`). -/
def markWrong (i : Fin letters) (j : Fin length) (clues : Fin length → Nat) : Fin length → Nat :=
  Function.update clues j (clues j ||| ((1 <<< i.val) % 2 ^ 32))

/-- The statement `s.clues[j] |= uint32(i+1) << (32 - length)`. -/
def markGreen (i : Fin letters) (j : Fin length) (clues : Fin length → Nat) : Fin length → Nat :=
  Function.update clues j (clues j ||| ((((i.val + 1) % 2 ^ 32) <<< (32 - length)) % 2 ^ 32))

/-- The body of the loop of the case `targetIndex == 0` (lines 102-105). -/
def absentBody (i : Fin letters) (ci : charIndex) (v : guessVars) (j : Fin length) : guessVars :=
  if ci.atPos j.val then
    { v with result := Function.update v.result j clue.gray, clues := markWrong i j v.clues }
  else v

/-- The loop over the positions in the case `targetIndex == 0` (lines 101-106). -/
def guessAbsent (i : Fin letters) (ci : charIndex) (v : guessVars) : guessVars :=
  (List.finRange length).foldl (absentBody i ci) v

/-- The body of the loop of the case `charIndex.count() <= targetIndex.count()`
(lines 112-120). -/
def withinBody (i : Fin letters) (ci ti : charIndex) (v : guessVars) (j : Fin length) :
    guessVars :=
  if ci.atPos j.val then
    if ti.atPos j.val then
      { v with result := Function.update v.result j clue.green, clues := markGreen i j v.clues }
    else
      { v with result := Function.update v.result j clue.yellow, clues := markWrong i j v.clues }
  else v

/-- The loop over the positions in the case `charIndex.count() <= targetIndex.count()`
(lines 111-121). -/
def guessWithin (i : Fin letters) (ci ti : charIndex) (v : guessVars) : guessVars :=
  (List.finRange length).foldl (withinBody i ci ti) v

/-- The body of the first loop of the default case (lines 131-135): a green
decrements the `uint8` variable `need`, the second component. -/
def greensBody (i : Fin letters) (ci ti : charIndex) (p : guessVars × Nat) (j : Fin length) :
    guessVars × Nat :=
  if ci.atPos j.val && ti.atPos j.val then
    ({ p.1 with result := Function.update p.1.result j clue.green,
                clues := markGreen i j p.1.clues }, (p.2 + 255) % 256)
  else p

/-- The first loop of the default case (lines 130-136). -/
def guessGreens (i : Fin letters) (ci ti : charIndex) (p : guessVars × Nat) : guessVars × Nat :=
  (List.finRange length).foldl (greensBody i ci ti) p

/-- The body of the second loop of the default case (lines 139-148): yellow while
`need > 0`, gray afterwards. -/
def restBody (i : Fin letters) (ci ti : charIndex) (p : guessVars × Nat) (j : Fin length) :
    guessVars × Nat :=
  if ci.atPos j.val && !ti.atPos j.val then
    if 0 < p.2 then
      ({ p.1 with result := Function.update p.1.result j clue.yellow,
                  clues := markWrong i j p.1.clues }, (p.2 + 255) % 256)
    else
      ({ p.1 with result := Function.update p.1.result j clue.gray,
                  clues := markWrong i j p.1.clues }, p.2)
  else p

/-- The second loop of the default case (lines 138-149). -/
def guessRest (i : Fin letters) (ci ti : charIndex) (p : guessVars × Nat) : guessVars × Nat :=
  (List.finRange length).foldl (restBody i ci ti) p

/-- One iteration of the loop over the 26 letters (lines 89-152). -/
def guessLetter (wordIndex targetIndex : index) (v : guessVars) (i : Fin letters) : guessVars :=
  let ci := wordIndex i
  let ti := targetIndex i
  if ci = 0 then v
  else if ti = 0 then
    let v1 := guessAbsent i ci v
    { v1 with counts := Function.update v1.counts i 0x80 }
  else if ci.count ≤ ti.count then
    let v1 := guessWithin i ci ti v
    { v1 with counts := Function.update v1.counts i ci.count }
  else
    let need := ti.count
    let p1 := guessGreens i ci ti (v, need)
    let p2 := guessRest i ci ti p1
    { p2.1 with counts := Function.update p2.1.counts i (0x80 ||| ti.count) }

/-- The method `state.guess`: the state that the call leaves in `*s`, and the returned
clues and `won`, or `none` when the call panics. Both panics, the length test (line 84) and
the index expression inside `newIndex` (line 88), come before the loop, which alone assigns
to `s.clues` and `s.counts`. -/
def guess (s : state) (word : List Nat) : state × Option ((Fin length → clue) × Bool) :=
  if word.length ≠ length then (s, none)
  else
    match newIndex word with
    | none => (s, none)
    | some wordIndex =>
      let v := (List.finRange letters).foldl (guessLetter wordIndex s.targetIndex)
        { result := fun _ => clue.unknown, clues := s.clues, counts := s.counts }
      ({ s with clues := v.clues, counts := v.counts },
        some (v.result, decide (∀ j, v.result j = clue.green)))

/-! ## Hard mode (`game.go` lines 157-218) -/

/-- The body of the loop over `s.counts` (lines 163-183): `some r` when the
body returns `r`, `none` when the loop goes on. -/
def countProblem (s : state) (wordIndex : index) (i : Fin letters) :
    Option (Bool × String × Nat × Int) :=
  let n := s.counts i
  let max := n &&& 0x7f
  let c := (i.val + 97) % 256
  if n &&& 0x80 = 0x80 then
    if (wordIndex i).count ≠ max then
      if max = 0 then some (false, "can't use %c", c, -1)
      else some (false, "need to use %c exactly %d times", c, (max : Int))
    else none
  else
    if (wordIndex i).count < max then
      some (false, "need to use %c at least %d times", c, (max : Int))
    else none

/-- The body of the loop over the bytes of the word (lines 185-198). The loop runs after
the length test, so the bytes are those at the positions 0 to 4. -/
def clueProblem (s : state) (word : List Nat) (j : Fin length) :
    Option (Bool × String × Nat × Int) :=
  let c := word.getD j.val 0
  let i := letterOf c
  let clue := s.clues j
  let green := clue >>> (32 - length)
  let g := (green + 2 ^ 32 - 1) % 2 ^ 32 % 256
  if green ≠ 0 ∧ i ≠ g then
    some (false, "need %c as letter %d", (97 + g) % 256, (j.val : Int) + 1)
  else if clue &&& ((1 <<< i) % 2 ^ 32) ≠ 0 then
    some (false, "can't use %c as letter %d", c, (j.val : Int) + 1)
  else none

/-- The method `state.hardModeInfo`; it panics on a word whose length is not 5. -/
def hardModeInfo (s : state) (word : List Nat) : Option (Bool × String × Nat × Int) :=
  if word.length ≠ length then none
  else
    match newIndex word with
    | none => none
    | some wordIndex =>
      match (List.finRange letters).findSome? (countProblem s wordIndex) with
      | some r => some r
      | none =>
        match (List.finRange length).findSome? (clueProblem s word) with
        | some r => some r
        | none => some (true, "", 0, 0)

/-- The method `state.hardModeProblem`: `some none` is the `nil` error, `some (some e)`
the error built by `fmt.Errorf` from a format and its arguments. -/
def hardModeProblem (s : state) (word : List Nat) : Option (Option (String × List Int)) :=
  match hardModeInfo s word with
  | none => none
  | some (ok, str, b, n) =>
    if ok then some none
    else if n = -1 then some (some (str, [(b : Int)]))
    else some (some (str, [(b : Int), n]))

/-- The method `state.hardModeOK`. -/
def hardModeOK (s : state) (word : List Nat) : Option Bool :=
  match hardModeInfo s word with
  | none => none
  | some (ok, _, _, _) => some ok

/-- The bytes of an ASCII string literal. -/
def bytes (w : String) : List Nat := w.toList.map Char.toNat

/-! ## Notions used to state the properties -/

/-- A word of lowercase ASCII letters: every byte is between `'a'` and `'z'`. -/
def lower (w : List Nat) : Prop := ∀ c ∈ w, 97 ≤ c ∧ c ≤ 122

instance : DecidablePred lower := fun w => by unfold lower; infer_instance

/-- What one iteration of the loop of `newIndex`, at position `i`, does to the
entry of a letter; `b` tells whether the byte read is that letter. -/
def entryStep (i : Nat) (b : Bool) (x : Nat) : Nat :=
  if b then ((x ||| ((1 <<< i) % 256)) + (1 <<< length)) % 256 else x

/-- What the loop of `newIndex`, from position `i` on, does to the entry of a letter. -/
def entryFold : Nat → List Bool → Nat → Nat
  | _, [], x => x
  | i, b :: bs, x => entryFold (i + 1) bs (entryStep i b x)

/-- The entry of a letter after the five iterations on a 5-byte word. -/
def ent (b0 b1 b2 b3 b4 : Bool) : Nat := entryFold 0 [b0, b1, b2, b3, b4] 0

/-- Whether byte `j` of `w` is the letter with code `L`. -/
def hasAt (w : List Nat) (L : Nat) (j : Nat) : Bool := decide (letterOf (w.getD j 0) = L)

/-- The index that `newIndex` returns for a word of five lowercase letters. -/
def indexOf (w : List Nat) : index := fun L =>
  ent (hasAt w L.val 0) (hasAt w L.val 1) (hasAt w L.val 2) (hasAt w L.val 3) (hasAt w L.val 4)

/-- The positions before `j`, in loop order. -/
def before (j : Fin length) : List (Fin length) := (List.finRange length).filter (fun q => q < j)

/-- The positions after `j`, in loop order. -/
def after (j : Fin length) : List (Fin length) := (List.finRange length).filter (fun q => j < q)

/-- The bits that `markWrong` sets. -/
def wrongBits (i : Nat) : Nat := (1 <<< i) % 2 ^ 32

/-- The bits that `markGreen` sets. -/
def greenBits (i : Nat) : Nat := (((i + 1) % 2 ^ 32) <<< (32 - length)) % 2 ^ 32

/-- The number of positions of `w` that hold the letter with code `L`. -/
def cnt (w : List Nat) (L : Nat) : Nat :=
  (List.finRange length).countP (fun j => hasAt w L j.val)

/-- The number of positions where guess and target both hold the letter `L`. -/
def both (T G : List Nat) (L : Nat) : Nat :=
  (List.finRange length).countP (fun q => hasAt G L q.val && hasAt T L q.val)

/-- The number of positions before `j` where the guess holds `L` and the target does not. -/
def rank (T G : List Nat) (L : Nat) (j : Fin length) : Nat :=
  (before j).countP (fun q => hasAt G L q.val && !hasAt T L q.val)

/-- The clue of the duplicate-letter rule for an occurrence of `L` at position `j` of the
guess: green on a match; otherwise yellow for the first (count in target) - (greens)
unmatched occurrences in ascending position order, gray for the later ones. -/
def clueFor (T G : List Nat) (L : Nat) (j : Fin length) : clue :=
  if hasAt T L j.val then clue.green
  else if rank T G L j < cnt T L - both T G L then clue.yellow
  else clue.gray

/-- The count constraint recorded for a letter `L` that occurs in the guess. -/
def countFor (T G : List Nat) (L : Nat) : Nat :=
  if cnt T L = 0 then 0x80
  else if cnt G L ≤ cnt T L then cnt G L
  else 0x80 ||| cnt T L

/-- The letter code of byte `j` of `w`. -/
def letterAt (w : List Nat) (j : Fin length) : Nat := letterOf (w.getD j.val 0)

/-- The bits that a guess `G` on target `T` adds to `clues[j]`. -/
def bitsAt (T G : List Nat) (j : Fin length) : Nat :=
  if hasAt T (letterAt G j) j.val then greenBits (letterAt G j) else wrongBits (letterAt G j)

/-- A state of a game on the target `T`: `T` is five lowercase letters and `targetIndex`
is the index of `T`; the accumulators `clues` and `counts` are arbitrary. -/
def onTarget (s : state) (T : List Nat) : Prop :=
  s.target = T ∧ T.length = length ∧ lower T ∧ newIndex T = some s.targetIndex

/-- The clues of the duplicate-letter rule for the guess `G` on the target `T`. -/
def scored (T G : List Nat) : Fin length → clue := fun j => clueFor T G (letterAt G j) j

/-- The state that the recording rules give after the guess `G` on the target `T`. -/
def recorded (s : state) (T G : List Nat) : state :=
  { s with
    clues := fun j => s.clues j ||| bitsAt T G j
    counts := fun L => if cnt G L.val = 0 then s.counts L else countFor T G L.val }

/-- A state of a game on `T` with empty accumulators, as `newState` builds it. -/
def fresh (T : List Nat) : state :=
  { target := T, targetIndex := indexOf T, clues := fun _ => 0, counts := fun _ => 0 }

/-- The state after the guess "elite" in a game on "horse", by the recording rules. -/
def afterElite : state := recorded (fresh (bytes "horse")) (bytes "horse") (bytes "elite")

/-- The predicate on positions with the given five truth values. -/
def pat (b0 b1 b2 b3 b4 : Bool) : Fin length → Bool := fun q =>
  match q with
  | ⟨0, _⟩ => b0
  | ⟨1, _⟩ => b1
  | ⟨2, _⟩ => b2
  | ⟨3, _⟩ => b3
  | _ => b4

/-- The number of positions where guess and target both hold the byte `c`. -/
def matched (T G : List Nat) (c : Nat) : Nat :=
  (List.finRange length).countP (fun q => decide (G.getD q.val 0 = c ∧ T.getD q.val 0 = c))

/-- The number of positions before `j` where the guess holds the byte `G[j]` and the
target does not. -/
def unmatchedBefore (T G : List Nat) (j : Fin length) : Nat :=
  (before j).countP
    (fun q => decide (G.getD q.val 0 = G.getD j.val 0 ∧ T.getD q.val 0 ≠ G.getD j.val 0))

/-- The clues of one call of `guess` on a fresh game, as a list, with `won`. -/
def play (T G : List Nat) : Option (List clue × Bool) :=
  match newState T with
  | none => none
  | some s =>
    match guess s G with
    | (_, none) => none
    | (_, some (result, won)) => some (List.ofFn result, won)

/-- The state after a sequence of guesses; a panic of any call is a panic of the whole. -/
def guesses (s : state) : List (List Nat) → Option state
  | [] => some s
  | g :: gs =>
    match guess s g with
    | (_, none) => none
    | (s1, some _) => guesses s1 gs

/-- The state of a new game on `T` after a sequence of guesses. -/
def game (T : List Nat) (gs : List (List Nat)) : Option state :=
  match newState T with
  | none => none
  | some s => guesses s gs

/-! ## Metrics (`main.go` lines 132-198) -/

/-- The constant `m`, the size of a histogram. -/
abbrev m : Nat := 100

/-- A histogram `[m]int`: counter `i` counts the games that took `i` guesses. -/
abbrev histogram : Type := Fin m → Int

/-- The struct `metricImpl[T]`; a `badnessFunc` that panics returns `none`. -/
structure metricImpl (T : Type) where
  name : String
  badnessFunc : histogram → Option T

/-- The body of the loop of `run` (lines 143-150) on the variables `worst` and
`worstWords`, for the map entry `e`. -/
def metricImpl.body {T : Type} [LinearOrder T] (mi : metricImpl T)
    (acc : T × List (List Nat)) (e : List Nat × histogram) : Option (T × List (List Nat)) :=
  match mi.badnessFunc e.2 with
  | none => none
  | some badness =>
    if acc.1 < badness then some (badness, [e.1])
    else if acc.1 = badness then some (acc.1, acc.2 ++ [e.1])
    else some acc

/-- The loop of `run` over the map entries, in the order in which `range` yields them. -/
def metricImpl.loop {T : Type} [LinearOrder T] (mi : metricImpl T) :
    List (List Nat × histogram) → T × List (List Nat) → Option (T × List (List Nat))
  | [], acc => some acc
  | e :: es, acc =>
    match mi.body acc e with
    | none => none
    | some acc1 => mi.loop es acc1

/-- The method `metricImpl.run` (lines 139-154). The map is the list of its entries in
iteration order; `worst` starts at the zero value of `T`; `sort.Strings` puts the words in
ascending byte-wise order; the result is the triple that `fmt.Sprintf` formats. -/
def metricImpl.run {T : Type} [LinearOrder T] [Zero T] (mi : metricImpl T)
    (results : List (List Nat × histogram)) : Option (String × T × List (List Nat)) :=
  match mi.loop results (0, []) with
  | none => none
  | some (worst, worstWords) => some (mi.name, worst, worstWords.insertionSort (· ≤ ·))

/-- The `badnessFunc` of `metrics[0]` (lines 161-168): the first `i`, from `m - 1` down, with
`r[i] > 0`; it panics when there is none. -/
def worstBadness (r : histogram) : Option Int :=
  (List.finRange m).reverse.findSome? (fun i => if r i > 0 then some (i.val : Int) else none)

/-- The metric `metrics[0]`, "worst". -/
def worstMetric : metricImpl Int := { name := "worst", badnessFunc := worstBadness }

/-- The largest index of a nonzero counter of `r` is `k`. -/
def largestNonzero (r : histogram) (k : Fin m) : Prop :=
  r k ≠ 0 ∧ ∀ i : Fin m, r i ≠ 0 → i ≤ k

/-- What the loop of `run` has established after the entries `l`: `worst` is at least the
badness of every entry seen, it is the zero value or the badness of an entry seen, and
`worstWords` lists, in order, the entries seen whose badness is `worst`. -/
def runInv {T : Type} [LinearOrder T] [Zero T] (b : List Nat × histogram → T)
    (l : List (List Nat × histogram)) (acc : T × List (List Nat)) : Prop :=
  (∀ e ∈ l, b e ≤ acc.1) ∧ (acc.1 = 0 ∨ ∃ e ∈ l, b e = acc.1) ∧
    acc.2 = (l.filter (fun e => decide (b e = acc.1))).map Prod.fst

/-- The histogram with `n` games of `i` guesses and nothing else. -/
def histAt (i : Nat) (n : Int) : histogram := fun k => if k.val = i then n else 0

/-- A map with two targets: "nurse" with three games of 4 guesses, "horse" with one game
of 5 guesses. -/
def sampleResults : List (List Nat × histogram) :=
  [(bytes "nurse", histAt 4 3), (bytes "horse", histAt 5 1)]

/-- The `badnessFunc` of `metrics[1]` (lines 169-176): the first `i`, from 0 up, with
`r[i] > 0`; it panics when there is none. -/
def bestBadness (r : histogram) : Option Int :=
  (List.finRange m).findSome? (fun i => if r i > 0 then some (i.val : Int) else none)

/-- The metric `metrics[1]`, "best". -/
def bestMetric : metricImpl Int := { name := "best", badnessFunc := bestBadness }

/-- The smallest index of a nonzero counter of `r` is `k`. -/
def smallestNonzero (r : histogram) (k : Fin m) : Prop :=
  r k ≠ 0 ∧ ∀ i : Fin m, r i ≠ 0 → k ≤ i

/-- A Go `int` (64 bits, two's complement): the value that an exact integer wraps to. -/
def wrapInt (x : Int) : Int := (x + 9223372036854775808) % 18446744073709551616 - 9223372036854775808

/-- The loop of the `badnessFunc` of `metrics[2]` (lines 178-183): the Go `int`s `sum` and
`ct`. -/
def averageSums (r : histogram) : Int × Int :=
  (List.finRange m).foldl
    (fun (p : Int × Int) i => (wrapInt (p.1 + wrapInt ((i.val : Int) * r i)), wrapInt (p.2 + r i)))
    (0, 0)

/-- The `badnessFunc` of `metrics[2]`, "average" (lines 177-185). The `float64` conversions
and the division are taken as exact rationals. -/
def averageBadness (r : histogram) : Option ℚ :=
  some (((averageSums r).1 : ℚ) / ((averageSums r).2 : ℚ))

/-- The two loops of the `badnessFunc` of `metrics[3]` (lines 187-195): the Go `int`s `win`
and `loss`. -/
def notIn6Counts (r : histogram) : Int × Int :=
  let cutoff := 6
  let win := ((List.finRange m).filter (fun i => decide (i.val ≤ cutoff))).foldl
    (fun (win : Int) i => wrapInt (win + r i)) 0
  let loss := ((List.finRange m).filter (fun i => decide (cutoff + 1 ≤ i.val))).foldl
    (fun (loss : Int) i => wrapInt (loss + r i)) 0
  (win, loss)

/-- The `badnessFunc` of `metrics[3]`, "not-in-6" (lines 186-197), with `float64` taken as
exact rationals. -/
def notIn6Badness (r : histogram) : Option ℚ :=
  some (100 * ((notIn6Counts r).2 : ℚ) /
    ((wrapInt ((notIn6Counts r).1 + (notIn6Counts r).2) : Int) : ℚ))

/-- The metric `metrics[2]`, "average". -/
def averageMetric : metricImpl ℚ := { name := "average", badnessFunc := averageBadness }

/-- The metric `metrics[3]`, "not-in-6". -/
def notIn6Metric : metricImpl ℚ := { name := "not-in-6", badnessFunc := notIn6Badness }

/-- The histogram with three games of 4 guesses and two games of 5 guesses. -/
def sampleHist : histogram := fun k => if k.val = 4 then 3 else if k.val = 5 then 2 else 0

/-- Every word of the list is five lowercase letters. -/
def allWords (l : List (List Nat)) : Prop := ∀ w ∈ l, lower w ∧ w.length = length

/-- The state after the guesses `gs` on the target `T`, by the recording rules. -/
def recordedAll (s : state) (T : List Nat) : List (List Nat) → state
  | [] => s
  | g :: gs => recordedAll (recorded s T g) T gs

/-- The accumulators of `s` hold nothing that the target `T` violates: every `clues[j]` is
a `uint32` whose green field is 0 or the code of `T[j]` plus 1 and whose wrong-letter set
does not hold `T[j]`; every `counts[L]` is a lower bound that `T` meets or the exact count
of `L` in `T`. -/
def sound (s : state) (T : List Nat) : Prop :=
  (∀ j : Fin length, s.clues j < 2 ^ 32 ∧
    (s.clues j >>> 27 = 0 ∨ s.clues j >>> 27 = letterAt T j + 1) ∧
    (s.clues j).testBit (letterAt T j) = false) ∧
  (∀ L : Fin letters, s.counts L ≤ cnt T L.val ∨ s.counts L = 0x80 ||| cnt T L.val)

/-! ## The simulation driver (`main.go` lines 67-117 and 200-218) -/

/-- How a run of `playRandomly` ends: it returns the number of guesses, it panics, or the
fuel of the model runs out before the loop ends. -/
inductive outcome where
  | returned (i : Nat)
  | panicked
  | unfinished
  deriving DecidableEq, Repr

/-- The loop that filters `possible` (lines 89-95): the words that pass `hardModeOK`, in
order; a panic of `hardModeOK` is a panic of the loop. -/
def keepOK (s : state) : List (List Nat) → Option (List (List Nat))
  | [] => some []
  | w :: ws =>
    match hardModeOK s w with
    | none => none
    | some ok =>
      match keepOK s ws with
      | none => none
      | some newPossible => some (if ok then w :: newPossible else newPossible)

/-- The loop of `playRandomly` (lines 72-98), from the state `s`, the counter `i` and the
slice `possible`. The `i`-th call `rand.Intn(n)` returns `rnd i % n` and panics for
`n = 0`. The first argument is the fuel: the number of iterations the model may run. The
second component of the result lists the slice `possible` at each draw, in order. The
index drawn is below the length, so the default of `getD` is never read. -/
def playLoop (rnd : Nat → Nat) :
    Nat → state → Nat → List (List Nat) → outcome × List (List (List Nat))
  | 0, _, _, _ => (outcome.unfinished, [])
  | fuel + 1, s, i, possible =>
    if possible.length = 0 then (outcome.panicked, [possible])
    else
      let word := possible.getD (rnd i % possible.length) []
      match guess s word with
      | (_, none) => (outcome.panicked, [possible])
      | (s1, some (_, won)) =>
        if won then (outcome.returned i, [possible])
        else
          match keepOK s1 possible with
          | none => (outcome.panicked, [possible])
          | some newPossible =>
            let r := playLoop rnd fuel s1 (i + 1) newPossible
            (r.1, possible :: r.2)

/-- The function `playRandomly` (lines 67-99) for the word list `valid`; the flag `quiet`
only selects printing and is left out. -/
def playRandomly (valid : List (List Nat)) (target : List Nat) (rnd : Nat → Nat)
    (fuel : Nat) : outcome × List (List (List Nat)) :=
  match newState target with
  | none => (outcome.panicked, [])
  | some s => playLoop rnd fuel s 1 valid

/-- The statement `results[target][guesses]++` of `playAll` (line 213) on the histogram of
the target; an index outside the array panics. -/
def bump (r : histogram) (guesses : Nat) : Option histogram :=
  if h : guesses < m then
    some (Function.update r ⟨guesses, h⟩ (wrapInt (r ⟨guesses, h⟩ + 1)))
  else none

/-- The statement `results[guesses] = append(results[guesses], target)` of
`playManyRandomly` (line 111); an index outside the array panics. -/
def appendAt (results : Fin 100 → List (List Nat)) (guesses : Nat) (target : List Nat) :
    Option (Fin 100 → List (List Nat)) :=
  if h : guesses < 100 then
    some (Function.update results ⟨guesses, h⟩ (results ⟨guesses, h⟩ ++ [target]))
  else none

/-- What holds at the head of the loop of `playRandomly` in a game on `T`, after the losing
guesses `made`: the state holds nothing against `T`; `possible` holds `T` and only words
that meet the positional facts of the state; and at every position without a green fact
the letters of the guesses made are pairwise different, differ from the letter of `T`, and
are in the wrong-letter set. -/
def loopInv (T : List Nat) (s : state) (possible made : List (List Nat)) : Prop :=
  onTarget s T ∧ sound s T ∧ allWords possible ∧ allWords made ∧ T ∈ possible ∧
  (∀ w ∈ possible, ∀ j : Fin length,
    (s.clues j >>> 27 ≠ 0 → letterAt w j = letterAt T j) ∧
    (s.clues j).testBit (letterAt w j) = false) ∧
  (∀ j : Fin length, s.clues j >>> 27 = 0 →
    (made.map (fun g => letterAt g j)).Nodup ∧
    ∀ g ∈ made, letterAt g j ≠ letterAt T j ∧ (s.clues j).testBit (letterAt g j) = true) ∧
  (made = [] ∨ ∃ j : Fin length, s.clues j >>> 27 = 0)

/-- A small list of valid words that holds the target "horse". -/
def sampleValid : List (List Nat) :=
  [bytes "elite", bytes "nurse", bytes "verse", bytes "horse", bytes "crane", bytes "trace"]

/-! ## The letter index -/

theorem letterOf_lower {c : Nat} (h : 97 ≤ c ∧ c ≤ 122) :
    letterOf c = c - 97 ∧ letterOf c < letters := by
  unfold letterOf letters; omega

theorem newIndexLoop_spec (w : List Nat) : ∀ (i : Nat) (ret : index), lower w →
    ∃ idx, newIndexLoop i w ret = some idx ∧
      ∀ L : Fin letters,
        idx L = entryFold i (w.map fun c => decide (letterOf c = L.val)) (ret L) := by
  induction w with
  | nil => intro i ret _; exact ⟨ret, rfl, fun _ => rfl⟩
  | cons c cs ih =>
    intro i ret hl
    have hc : letterOf c < letters := (letterOf_lower (hl c (List.mem_cons_self _ _))).2
    have hcs : lower cs := fun x hx => hl x (List.mem_cons_of_mem _ hx)
    obtain ⟨idx, h1, h2⟩ := ih (i + 1)
      (Function.update (Function.update ret ⟨letterOf c, hc⟩
          (ret ⟨letterOf c, hc⟩ ||| (1 <<< i) % 256))
        ⟨letterOf c, hc⟩ ((Function.update ret ⟨letterOf c, hc⟩
          (ret ⟨letterOf c, hc⟩ ||| (1 <<< i) % 256) ⟨letterOf c, hc⟩ + 1 <<< length) % 256)) hcs
    refine ⟨idx, ?_, ?_⟩
    · simp only [newIndexLoop, hc, dite_true]; exact h1
    · intro L
      rw [h2 L]
      simp only [List.map_cons, entryFold, entryStep]
      by_cases hL : letterOf c = L.val
      · have : L = ⟨letterOf c, hc⟩ := Fin.ext hL.symm
        subst this
        simp
      · have : L ≠ ⟨letterOf c, hc⟩ := fun h => hL (by rw [h])
        simp [Function.update_noteq this, hL]

theorem ent_atPos : ∀ b0 b1 b2 b3 b4 : Bool,
    charIndex.atPos (ent b0 b1 b2 b3 b4) 0 = b0 ∧ charIndex.atPos (ent b0 b1 b2 b3 b4) 1 = b1 ∧
    charIndex.atPos (ent b0 b1 b2 b3 b4) 2 = b2 ∧ charIndex.atPos (ent b0 b1 b2 b3 b4) 3 = b3 ∧
    charIndex.atPos (ent b0 b1 b2 b3 b4) 4 = b4 := by decide

theorem ent_count : ∀ b0 b1 b2 b3 b4 : Bool,
    charIndex.count (ent b0 b1 b2 b3 b4) = [b0, b1, b2, b3, b4].count true ∧
    (ent b0 b1 b2 b3 b4) < 256 ∧
    (ent b0 b1 b2 b3 b4 = 0 ↔ [b0, b1, b2, b3, b4].count true = 0) := by decide

theorem newIndex_eq (w : List Nat) (hl : lower w) (hlen : w.length = length) :
    newIndex w = some (indexOf w) := by
  obtain ⟨idx, h1, h2⟩ := newIndexLoop_spec w 0 index.zero hl
  unfold newIndex
  rw [h1]
  congr 1
  funext L
  rw [h2 L]
  match w, hlen with
  | [c0, c1, c2, c3, c4], _ => rfl

theorem finRange_five : List.finRange length = [0, 1, 2, 3, 4] := by decide

theorem indexOf_atPos (w : List Nat) (L : Fin letters) (j : Fin length) :
    (indexOf w L).atPos j.val = hasAt w L.val j.val := by
  have h := ent_atPos (hasAt w L.val 0) (hasAt w L.val 1) (hasAt w L.val 2) (hasAt w L.val 3)
    (hasAt w L.val 4)
  unfold indexOf
  fin_cases j
  · exact h.1
  · exact h.2.1
  · exact h.2.2.1
  · exact h.2.2.2.1
  · exact h.2.2.2.2

theorem countP_five (p : Fin length → Bool) :
    (List.finRange length).countP p = [p 0, p 1, p 2, p 3, p 4].count true := by
  rw [finRange_five]
  cases h0 : p 0 <;> cases h1 : p 1 <;> cases h2 : p 2 <;> cases h3 : p 3 <;> cases h4 : p 4 <;>
    simp [List.countP_cons, h0, h1, h2, h3, h4]

theorem indexOf_count (w : List Nat) (L : Fin letters) :
    (indexOf w L).count = (List.finRange length).countP (fun j => hasAt w L.val j.val) := by
  rw [countP_five]
  exact (ent_count _ _ _ _ _).1

theorem indexOf_lt (w : List Nat) (L : Fin letters) : indexOf w L < 256 :=
  (ent_count _ _ _ _ _).2.1

theorem indexOf_eq_zero (w : List Nat) (L : Fin letters) :
    indexOf w L = 0 ↔ (List.finRange length).countP (fun j => hasAt w L.val j.val) = 0 := by
  rw [countP_five]
  exact (ent_count _ _ _ _ _).2.2

/-! ## Loops that write one array element per iteration -/

theorem foldl_frame {σ α ι : Type} (get : σ → α) (step : σ → ι → σ) (l : List ι) :
    ∀ v : σ, (∀ u : σ, ∀ j ∈ l, get (step u j) = get u) → get (l.foldl step v) = get v := by
  induction l with
  | nil => intro v _; rfl
  | cons a l ih =>
    intro v h
    rw [List.foldl_cons, ih (step v a) (fun u j hj => h u j (List.mem_cons_of_mem _ hj))]
    exact h v a (List.mem_cons_self _ _)

theorem finRange_split : ∀ j : Fin length,
    List.finRange length = before j ++ j :: after j ∧ j ∉ before j ∧ j ∉ after j := by decide

theorem foldl_at {σ α : Type} (get : σ → α) (step : σ → Fin length → σ) (j : Fin length)
    (hframe : ∀ (u : σ) (q : Fin length), q ≠ j → get (step u q) = get u) (v : σ) :
    get ((List.finRange length).foldl step v) = get (step ((before j).foldl step v) j) := by
  obtain ⟨h1, _, h3⟩ := finRange_split j
  rw [h1, List.foldl_append, List.foldl_cons]
  exact foldl_frame get step (after j) _ (fun u q hq => hframe u q (fun h => h3 (h ▸ hq)))

theorem foldl_before {σ α : Type} (get : σ → α) (step : σ → Fin length → σ) (j : Fin length)
    (hframe : ∀ (u : σ) (q : Fin length), q ≠ j → get (step u q) = get u) (v : σ) :
    get ((before j).foldl step v) = get v :=
  foldl_frame get step (before j) v
    (fun u q hq => hframe u q (fun h => (finRange_split j).2.1 (h ▸ hq)))

theorem markWrong_apply (i : Fin letters) (j q : Fin length) (c : Fin length → Nat) :
    markWrong i j c q = if q = j then c q ||| wrongBits i.val else c q := by
  unfold markWrong wrongBits
  by_cases h : q = j
  · subst h; simp
  · simp [Function.update_noteq h, h]

theorem markGreen_apply (i : Fin letters) (j q : Fin length) (c : Fin length → Nat) :
    markGreen i j c q = if q = j then c q ||| greenBits i.val else c q := by
  unfold markGreen greenBits
  by_cases h : q = j
  · subst h; simp
  · simp [Function.update_noteq h, h]

/-! ## The inner loops of `guess` -/

theorem absentBody_ne (i : Fin letters) (ci : charIndex) (u : guessVars) (q j : Fin length)
    (h : q ≠ j) : (absentBody i ci u q).result j = u.result j ∧
      (absentBody i ci u q).clues j = u.clues j := by
  unfold absentBody
  by_cases hc : ci.atPos q.val <;>
    simp [hc, Function.update_noteq h.symm, markWrong_apply, h.symm]

theorem absentBody_self (i : Fin letters) (ci : charIndex) (u : guessVars) (j : Fin length) :
    (absentBody i ci u j).result j = (if ci.atPos j.val then clue.gray else u.result j) ∧
    (absentBody i ci u j).clues j =
      (if ci.atPos j.val then u.clues j ||| wrongBits i.val else u.clues j) := by
  unfold absentBody
  by_cases hc : ci.atPos j.val <;> simp [hc, markWrong_apply]

theorem guessAbsent_result (i : Fin letters) (ci : charIndex) (v : guessVars) (j : Fin length) :
    (guessAbsent i ci v).result j = if ci.atPos j.val then clue.gray else v.result j := by
  have hf := fun u q h => (absentBody_ne i ci u q j h).1
  unfold guessAbsent
  rw [foldl_at (fun w : guessVars => w.result j) _ j hf v, (absentBody_self i ci _ j).1,
    foldl_before (fun w : guessVars => w.result j) _ j hf v]

theorem guessAbsent_clues (i : Fin letters) (ci : charIndex) (v : guessVars) (j : Fin length) :
    (guessAbsent i ci v).clues j =
      if ci.atPos j.val then v.clues j ||| wrongBits i.val else v.clues j := by
  have hf := fun u q h => (absentBody_ne i ci u q j h).2
  unfold guessAbsent
  rw [foldl_at (fun w : guessVars => w.clues j) _ j hf v, (absentBody_self i ci _ j).2,
    foldl_before (fun w : guessVars => w.clues j) _ j hf v]

theorem guessAbsent_counts (i : Fin letters) (ci : charIndex) (v : guessVars) :
    (guessAbsent i ci v).counts = v.counts := by
  unfold guessAbsent
  refine foldl_frame (fun w : guessVars => w.counts) _ _ v ?_
  intro u q _
  unfold absentBody
  by_cases hc : ci.atPos q.val <;> simp [hc]

theorem withinBody_ne (i : Fin letters) (ci ti : charIndex) (u : guessVars) (q j : Fin length)
    (h : q ≠ j) : (withinBody i ci ti u q).result j = u.result j ∧
      (withinBody i ci ti u q).clues j = u.clues j := by
  unfold withinBody
  by_cases hc : ci.atPos q.val <;> by_cases ht : ti.atPos q.val <;>
    simp [hc, ht, Function.update_noteq h.symm, markWrong_apply, markGreen_apply, h.symm]

theorem withinBody_self (i : Fin letters) (ci ti : charIndex) (u : guessVars) (j : Fin length) :
    (withinBody i ci ti u j).result j =
      (if ci.atPos j.val then (if ti.atPos j.val then clue.green else clue.yellow)
       else u.result j) ∧
    (withinBody i ci ti u j).clues j =
      (if ci.atPos j.val then
        (if ti.atPos j.val then u.clues j ||| greenBits i.val else u.clues j ||| wrongBits i.val)
       else u.clues j) := by
  unfold withinBody
  by_cases hc : ci.atPos j.val <;> by_cases ht : ti.atPos j.val <;>
    simp [hc, ht, markWrong_apply, markGreen_apply]

theorem guessWithin_result (i : Fin letters) (ci ti : charIndex) (v : guessVars)
    (j : Fin length) :
    (guessWithin i ci ti v).result j =
      if ci.atPos j.val then (if ti.atPos j.val then clue.green else clue.yellow)
      else v.result j := by
  have hf := fun u q h => (withinBody_ne i ci ti u q j h).1
  unfold guessWithin
  rw [foldl_at (fun w : guessVars => w.result j) _ j hf v, (withinBody_self i ci ti _ j).1,
    foldl_before (fun w : guessVars => w.result j) _ j hf v]

theorem guessWithin_clues (i : Fin letters) (ci ti : charIndex) (v : guessVars)
    (j : Fin length) :
    (guessWithin i ci ti v).clues j =
      if ci.atPos j.val then
        (if ti.atPos j.val then v.clues j ||| greenBits i.val else v.clues j ||| wrongBits i.val)
      else v.clues j := by
  have hf := fun u q h => (withinBody_ne i ci ti u q j h).2
  unfold guessWithin
  rw [foldl_at (fun w : guessVars => w.clues j) _ j hf v, (withinBody_self i ci ti _ j).2,
    foldl_before (fun w : guessVars => w.clues j) _ j hf v]

theorem guessWithin_counts (i : Fin letters) (ci ti : charIndex) (v : guessVars) :
    (guessWithin i ci ti v).counts = v.counts := by
  unfold guessWithin
  refine foldl_frame (fun w : guessVars => w.counts) _ _ v ?_
  intro u q _
  unfold withinBody
  by_cases hc : ci.atPos q.val <;> by_cases ht : ti.atPos q.val <;> simp [hc, ht]

theorem greensBody_ne (i : Fin letters) (ci ti : charIndex) (u : guessVars × Nat)
    (q j : Fin length) (h : q ≠ j) :
    (greensBody i ci ti u q).1.result j = u.1.result j ∧
      (greensBody i ci ti u q).1.clues j = u.1.clues j := by
  unfold greensBody
  by_cases hc : (ci.atPos q.val && ti.atPos q.val) <;>
    simp [hc, Function.update_noteq h.symm, markGreen_apply, h.symm]

theorem greensBody_self (i : Fin letters) (ci ti : charIndex) (u : guessVars × Nat)
    (j : Fin length) :
    (greensBody i ci ti u j).1.result j =
      (if (ci.atPos j.val && ti.atPos j.val) then clue.green else u.1.result j) ∧
    (greensBody i ci ti u j).1.clues j =
      (if (ci.atPos j.val && ti.atPos j.val) then u.1.clues j ||| greenBits i.val
       else u.1.clues j) := by
  unfold greensBody
  by_cases hc : (ci.atPos j.val && ti.atPos j.val) <;> simp [hc, markGreen_apply]

theorem guessGreens_result (i : Fin letters) (ci ti : charIndex) (p : guessVars × Nat)
    (j : Fin length) :
    (guessGreens i ci ti p).1.result j =
      if (ci.atPos j.val && ti.atPos j.val) then clue.green else p.1.result j := by
  have hf := fun u q h => (greensBody_ne i ci ti u q j h).1
  unfold guessGreens
  rw [foldl_at (fun w : guessVars × Nat => w.1.result j) _ j hf p,
    (greensBody_self i ci ti _ j).1,
    foldl_before (fun w : guessVars × Nat => w.1.result j) _ j hf p]

theorem guessGreens_clues (i : Fin letters) (ci ti : charIndex) (p : guessVars × Nat)
    (j : Fin length) :
    (guessGreens i ci ti p).1.clues j =
      if (ci.atPos j.val && ti.atPos j.val) then p.1.clues j ||| greenBits i.val
      else p.1.clues j := by
  have hf := fun u q h => (greensBody_ne i ci ti u q j h).2
  unfold guessGreens
  rw [foldl_at (fun w : guessVars × Nat => w.1.clues j) _ j hf p,
    (greensBody_self i ci ti _ j).2,
    foldl_before (fun w : guessVars × Nat => w.1.clues j) _ j hf p]

theorem guessGreens_counts (i : Fin letters) (ci ti : charIndex) (p : guessVars × Nat) :
    (guessGreens i ci ti p).1.counts = p.1.counts := by
  unfold guessGreens
  refine foldl_frame (fun w : guessVars × Nat => w.1.counts) _ _ p ?_
  intro u q _
  unfold greensBody
  by_cases hc : (ci.atPos q.val && ti.atPos q.val) <;> simp [hc]

/-- The variable `need` after the greens over the positions of `l`: one less per green,
as long as it does not wrap. -/
theorem greens_need (i : Fin letters) (ci ti : charIndex) (l : List (Fin length)) :
    ∀ p : guessVars × Nat, p.2 < 256 →
      l.countP (fun q => ci.atPos q.val && ti.atPos q.val) ≤ p.2 →
      (l.foldl (greensBody i ci ti) p).2 =
        p.2 - l.countP (fun q => ci.atPos q.val && ti.atPos q.val) := by
  induction l with
  | nil => intro p _ _; simp
  | cons a l ih =>
    intro p hp hle
    rw [List.foldl_cons]
    by_cases hc : (ci.atPos a.val && ti.atPos a.val) = true
    · rw [List.countP_cons] at hle ⊢
      simp only [hc, if_true] at hle ⊢
      have h1 : (greensBody i ci ti p a).2 = p.2 - 1 := by
        unfold greensBody; simp only [hc, if_true]; omega
      rw [ih _ (by rw [h1]; omega) (by rw [h1]; omega), h1]
      omega
    · rw [List.countP_cons] at hle ⊢
      simp only [hc, Bool.false_eq_true, if_false, Nat.add_zero] at hle ⊢
      have h1 : greensBody i ci ti p a = p := by
        unfold greensBody; simp only [hc]; rfl
      rw [h1]
      exact ih p hp hle

/-- The variable `need` after the second loop over the positions of `l`: one less per
position that is in the guess and not in the target, never below zero. -/
theorem rest_need (i : Fin letters) (ci ti : charIndex) (l : List (Fin length)) :
    ∀ p : guessVars × Nat, p.2 < 256 →
      (l.foldl (restBody i ci ti) p).2 =
        p.2 - l.countP (fun q => ci.atPos q.val && !ti.atPos q.val) := by
  induction l with
  | nil => intro p _; simp
  | cons a l ih =>
    intro p hp
    rw [List.foldl_cons]
    by_cases hc : (ci.atPos a.val && !ti.atPos a.val) = true
    · rw [List.countP_cons]
      simp only [hc, if_true]
      have h1 : (restBody i ci ti p a).2 = p.2 - 1 := by
        unfold restBody; simp only [hc, if_true]
        by_cases h0 : 0 < p.2
        · simp only [h0, if_true]; omega
        · simp only [h0, if_false]; omega
      rw [ih _ (by rw [h1]; omega), h1]
      omega
    · rw [List.countP_cons]
      simp only [hc, Bool.false_eq_true, if_false, Nat.add_zero]
      have h1 : restBody i ci ti p a = p := by
        unfold restBody; simp only [hc]; rfl
      rw [h1]
      exact ih p hp

theorem restBody_ne (i : Fin letters) (ci ti : charIndex) (u : guessVars × Nat)
    (q j : Fin length) (h : q ≠ j) :
    (restBody i ci ti u q).1.result j = u.1.result j ∧
      (restBody i ci ti u q).1.clues j = u.1.clues j := by
  unfold restBody
  by_cases hc : (ci.atPos q.val && !ti.atPos q.val) <;> by_cases h0 : 0 < u.2 <;>
    simp [hc, h0, Function.update_noteq h.symm, markWrong_apply, h.symm]

theorem restBody_self (i : Fin letters) (ci ti : charIndex) (u : guessVars × Nat)
    (j : Fin length) :
    (restBody i ci ti u j).1.result j =
      (if (ci.atPos j.val && !ti.atPos j.val) then
        (if 0 < u.2 then clue.yellow else clue.gray) else u.1.result j) ∧
    (restBody i ci ti u j).1.clues j =
      (if (ci.atPos j.val && !ti.atPos j.val) then u.1.clues j ||| wrongBits i.val
       else u.1.clues j) := by
  unfold restBody
  by_cases hc : (ci.atPos j.val && !ti.atPos j.val) <;> by_cases h0 : 0 < u.2 <;>
    simp [hc, h0, markWrong_apply]

theorem guessRest_result (i : Fin letters) (ci ti : charIndex) (p : guessVars × Nat)
    (hp : p.2 < 256) (j : Fin length) :
    (guessRest i ci ti p).1.result j =
      if (ci.atPos j.val && !ti.atPos j.val) then
        (if (before j).countP (fun q => ci.atPos q.val && !ti.atPos q.val) < p.2
          then clue.yellow else clue.gray)
      else p.1.result j := by
  have hf := fun u q h => (restBody_ne i ci ti u q j h).1
  unfold guessRest
  rw [foldl_at (fun w : guessVars × Nat => w.1.result j) _ j hf p,
    (restBody_self i ci ti _ j).1,
    foldl_before (fun w : guessVars × Nat => w.1.result j) _ j hf p,
    rest_need i ci ti (before j) p hp]
  simp only [Nat.sub_pos_iff_lt]

theorem guessRest_clues (i : Fin letters) (ci ti : charIndex) (p : guessVars × Nat)
    (j : Fin length) :
    (guessRest i ci ti p).1.clues j =
      if (ci.atPos j.val && !ti.atPos j.val) then p.1.clues j ||| wrongBits i.val
      else p.1.clues j := by
  have hf := fun u q h => (restBody_ne i ci ti u q j h).2
  unfold guessRest
  rw [foldl_at (fun w : guessVars × Nat => w.1.clues j) _ j hf p,
    (restBody_self i ci ti _ j).2,
    foldl_before (fun w : guessVars × Nat => w.1.clues j) _ j hf p]

theorem guessRest_counts (i : Fin letters) (ci ti : charIndex) (p : guessVars × Nat) :
    (guessRest i ci ti p).1.counts = p.1.counts := by
  unfold guessRest
  refine foldl_frame (fun w : guessVars × Nat => w.1.counts) _ _ p ?_
  intro u q _
  unfold restBody
  by_cases hc : (ci.atPos q.val && !ti.atPos q.val) <;> by_cases h0 : 0 < u.2 <;> simp [hc, h0]

/-! ## Counting positions -/

theorem countP_and_le (a b : Fin length → Bool) (l : List (Fin length)) :
    l.countP (fun q => a q && b q) ≤ l.countP b := by
  induction l with
  | nil => simp
  | cons x l ih =>
    rw [List.countP_cons, List.countP_cons]
    cases a x <;> cases b x <;> simp <;> omega

theorem countP_split (a b : Fin length → Bool) (l : List (Fin length)) :
    l.countP a = l.countP (fun q => a q && b q) + l.countP (fun q => a q && !b q) := by
  induction l with
  | nil => simp
  | cons x l ih =>
    rw [List.countP_cons, List.countP_cons, List.countP_cons, ih]
    cases a x <;> cases b x <;> simp <;> omega

theorem countP_before_lt (p : Fin length → Bool) (j : Fin length) (hj : p j = true) :
    (before j).countP p < (List.finRange length).countP p := by
  have h := (finRange_split j).1
  have h2 : (List.finRange length).countP p = (before j ++ j :: after j).countP p := by rw [← h]
  rw [h2, List.countP_append, List.countP_cons]
  simp only [hj, if_true]
  omega

theorem countP_eq_zero_apply (p : Fin length → Bool) (j : Fin length)
    (h : (List.finRange length).countP p = 0) : p j = false := by
  rw [List.countP_eq_zero] at h
  have := h j (List.mem_finRange j)
  simpa using this

/-! ## One letter of the loop of `guess` -/

theorem indexOf_count_eq (w : List Nat) (L : Fin letters) : (indexOf w L).count = cnt w L.val :=
  indexOf_count w L

theorem indexOf_zero_iff (w : List Nat) (L : Fin letters) : indexOf w L = 0 ↔ cnt w L.val = 0 :=
  indexOf_eq_zero w L

theorem cnt_le (w : List Nat) (L : Nat) : cnt w L ≤ 5 := by
  unfold cnt
  have := List.countP_le_length (fun j : Fin length => hasAt w L j.val) (l := List.finRange length)
  simpa using this

theorem guessLetter_result (T G : List Nat) (v : guessVars) (i : Fin letters) (j : Fin length) :
    (guessLetter (indexOf G) (indexOf T) v i).result j =
      if hasAt G i.val j.val then clueFor T G i.val j else v.result j := by
  unfold guessLetter
  simp only
  by_cases hc0 : indexOf G i = 0
  · have hg : hasAt G i.val j.val = false :=
      countP_eq_zero_apply (fun q => hasAt G i.val q.val) j ((indexOf_zero_iff G i).1 hc0)
    simp [hc0, hg]
  · rw [if_neg hc0]
    by_cases ht0 : indexOf T i = 0
    · have hT := (indexOf_zero_iff T i).1 ht0
      have ht : hasAt T i.val j.val = false :=
        countP_eq_zero_apply (fun q => hasAt T i.val q.val) j hT
      rw [if_pos ht0]
      simp only [guessAbsent_result, indexOf_atPos]
      unfold clueFor
      simp [ht, hT]
    · rw [if_neg ht0]
      have hsplit := countP_split (fun q : Fin length => hasAt G i.val q.val)
        (fun q => hasAt T i.val q.val) (List.finRange length)
      have hle := countP_and_le (fun q : Fin length => hasAt G i.val q.val)
        (fun q => hasAt T i.val q.val) (List.finRange length)
      by_cases hcmp : (indexOf G i).count ≤ (indexOf T i).count
      · rw [if_pos hcmp]
        simp only [guessWithin_result, indexOf_atPos]
        rw [indexOf_count_eq, indexOf_count_eq] at hcmp
        unfold clueFor
        by_cases hg : hasAt G i.val j.val = true
        · by_cases ht : hasAt T i.val j.val = true
          · simp [hg, ht]
          · have hlt := countP_before_lt (fun q => hasAt G i.val q.val && !hasAt T i.val q.val) j
              (by simp [hg, ht])
            have : rank T G i.val j < cnt T i.val - both T G i.val := by
              unfold rank both cnt
              unfold cnt at hcmp
              omega
            simp [hg, ht, this]
        · simp [hg]
      · rw [if_neg hcmp]
        have hneed : (indexOf T i).count < 256 := by
          rw [indexOf_count_eq]; have := cnt_le T i.val; omega
        have hgn : (guessGreens i (indexOf G i) (indexOf T i) (v, (indexOf T i).count)).2 =
            cnt T i.val - both T G i.val := by
          unfold guessGreens
          rw [greens_need i _ _ _ _ hneed]
          · simp only [indexOf_atPos, indexOf_count_eq]; rfl
          · simp only [indexOf_atPos, indexOf_count_eq]; exact hle
        rw [guessRest_result _ _ _ _ (by rw [hgn]; have := cnt_le T i.val; omega), hgn,
          guessGreens_result]
        simp only [indexOf_atPos]
        unfold clueFor
        by_cases hg : hasAt G i.val j.val = true <;> by_cases ht : hasAt T i.val j.val = true
        · simp [hg, ht]
        · simp only [hg, ht, Bool.not_false, Bool.and_true, if_true, Bool.false_eq_true,
            if_false, Bool.and_false]
          rfl
        · simp [hg, ht]
        · simp [hg, ht]

theorem guessLetter_clues (T G : List Nat) (v : guessVars) (i : Fin letters) (j : Fin length) :
    (guessLetter (indexOf G) (indexOf T) v i).clues j =
      if hasAt G i.val j.val then
        (if hasAt T i.val j.val then v.clues j ||| greenBits i.val else v.clues j ||| wrongBits i.val)
      else v.clues j := by
  unfold guessLetter
  simp only
  by_cases hc0 : indexOf G i = 0
  · have hg : hasAt G i.val j.val = false :=
      countP_eq_zero_apply (fun q => hasAt G i.val q.val) j ((indexOf_zero_iff G i).1 hc0)
    simp [hc0, hg]
  · rw [if_neg hc0]
    by_cases ht0 : indexOf T i = 0
    · have ht : hasAt T i.val j.val = false :=
        countP_eq_zero_apply (fun q => hasAt T i.val q.val) j ((indexOf_zero_iff T i).1 ht0)
      rw [if_pos ht0]
      simp only [guessAbsent_clues, indexOf_atPos]
      simp [ht]
    · rw [if_neg ht0]
      by_cases hcmp : (indexOf G i).count ≤ (indexOf T i).count
      · rw [if_pos hcmp]
        simp only [guessWithin_clues, indexOf_atPos]
      · rw [if_neg hcmp]
        rw [guessRest_clues, guessGreens_clues]
        simp only [indexOf_atPos]
        by_cases hg : hasAt G i.val j.val = true <;> by_cases ht : hasAt T i.val j.val = true <;>
          simp [hg, ht]

theorem guessLetter_counts (T G : List Nat) (v : guessVars) (i : Fin letters) :
    (guessLetter (indexOf G) (indexOf T) v i).counts =
      if cnt G i.val = 0 then v.counts
      else Function.update v.counts i (countFor T G i.val) := by
  unfold guessLetter countFor
  simp only [indexOf_zero_iff, indexOf_count_eq]
  by_cases hc0 : cnt G i.val = 0
  · simp [hc0]
  · rw [if_neg hc0, if_neg hc0]
    by_cases ht0 : cnt T i.val = 0
    · simp [ht0, guessAbsent_counts]
    · rw [if_neg ht0, if_neg ht0]
      by_cases hcmp : cnt G i.val ≤ cnt T i.val
      · simp [hcmp, guessWithin_counts]
      · simp [hcmp, guessRest_counts, guessGreens_counts]

/-! ## The loop over the letters -/

theorem foldl_hit {σ α ι : Type} (get : σ → α) (step : σ → ι → σ) (l : List ι) (x : ι)
    (hnd : l.Nodup) (hx : x ∈ l)
    (hframe : ∀ (u : σ) (q : ι), q ≠ x → get (step u q) = get u) (v : σ) :
    ∃ u : σ, get u = get v ∧ get (l.foldl step v) = get (step u x) := by
  obtain ⟨l1, l2, rfl⟩ := List.append_of_mem hx
  have h1 : x ∉ l1 := by
    intro h
    have := (List.nodup_append.1 hnd).2.2
    exact this h (List.mem_cons_self _ _)
  have h2 : x ∉ l2 := by
    have := (List.nodup_append.1 hnd).2.1
    exact (List.nodup_cons.1 this).1
  refine ⟨l1.foldl step v, ?_, ?_⟩
  · exact foldl_frame get step l1 v (fun u q hq => hframe u q (fun h => h1 (h ▸ hq)))
  · rw [List.foldl_append, List.foldl_cons]
    exact foldl_frame get step l2 _ (fun u q hq => hframe u q (fun h => h2 (h ▸ hq)))

theorem letterAt_lt (G : List Nat) (hl : lower G) (hlen : G.length = length) (j : Fin length) :
    letterAt G j < letters := by
  unfold letterAt
  have hj : j.val < G.length := by rw [hlen]; exact j.isLt
  rw [List.getD_eq_getElem _ _ hj]
  exact (letterOf_lower (hl _ (List.getElem_mem _))).2

theorem hasAt_letterAt (G : List Nat) (L : Nat) (j : Fin length) :
    hasAt G L j.val = decide (letterAt G j = L) := rfl

/-- The loop of `guess` over the 26 letters, started from `v`. -/
theorem guessLoop_result (T G : List Nat) (hl : lower G) (hlen : G.length = length)
    (v : guessVars) (j : Fin length) :
    ((List.finRange letters).foldl (guessLetter (indexOf G) (indexOf T)) v).result j =
      clueFor T G (letterAt G j) j := by
  have hlt := letterAt_lt G hl hlen j
  obtain ⟨u, _, h2⟩ := foldl_hit (fun w : guessVars => w.result j)
    (guessLetter (indexOf G) (indexOf T)) (List.finRange letters) ⟨letterAt G j, hlt⟩
    (List.nodup_finRange _) (List.mem_finRange _)
    (by
      intro u q hq
      have : letterAt G j ≠ q.val := fun h => hq (Fin.ext h.symm)
      simp [guessLetter_result, hasAt_letterAt, this]) v
  rw [h2, guessLetter_result]
  simp [hasAt_letterAt]

theorem guessLoop_clues (T G : List Nat) (hl : lower G) (hlen : G.length = length)
    (v : guessVars) (j : Fin length) :
    ((List.finRange letters).foldl (guessLetter (indexOf G) (indexOf T)) v).clues j =
      v.clues j ||| bitsAt T G j := by
  have hlt := letterAt_lt G hl hlen j
  obtain ⟨u, h1, h2⟩ := foldl_hit (fun w : guessVars => w.clues j)
    (guessLetter (indexOf G) (indexOf T)) (List.finRange letters) ⟨letterAt G j, hlt⟩
    (List.nodup_finRange _) (List.mem_finRange _)
    (by
      intro u q hq
      have : letterAt G j ≠ q.val := fun h => hq (Fin.ext h.symm)
      simp [guessLetter_clues, hasAt_letterAt, this]) v
  rw [h2, guessLetter_clues, h1]
  unfold bitsAt
  by_cases ht : hasAt T (letterAt G j) j.val = true <;> simp [hasAt_letterAt, ht]

theorem guessLoop_counts (T G : List Nat) (v : guessVars) (L : Fin letters) :
    ((List.finRange letters).foldl (guessLetter (indexOf G) (indexOf T)) v).counts L =
      if cnt G L.val = 0 then v.counts L else countFor T G L.val := by
  obtain ⟨u, h1, h2⟩ := foldl_hit (fun w : guessVars => w.counts L)
    (guessLetter (indexOf G) (indexOf T)) (List.finRange letters) L
    (List.nodup_finRange _) (List.mem_finRange _)
    (by
      intro u q hq
      simp only [guessLetter_counts]
      by_cases h : cnt G q.val = 0
      · simp [h]
      · simp [h, Function.update_noteq hq.symm]) v
  rw [h2, guessLetter_counts]
  by_cases h : cnt G L.val = 0
  · simp [h, h1]
  · simp [h]

/-! ## The method `guess` -/

theorem onTarget_index {s : state} {T : List Nat} (hs : onTarget s T) :
    s.targetIndex = indexOf T := by
  obtain ⟨_, hlen, hl, hi⟩ := hs
  rw [newIndex_eq T hl hlen] at hi
  exact (Option.some.inj hi).symm

theorem guess_eq (s : state) (T G : List Nat) (hs : onTarget s T) (hl : lower G)
    (hlen : G.length = length) :
    guess s G = (recorded s T G, some (scored T G, decide (∀ j, scored T G j = clue.green))) := by
  have hr : ∀ v : guessVars,
      ((List.finRange letters).foldl (guessLetter (indexOf G) (indexOf T)) v).result =
        scored T G := fun v => funext (fun j => guessLoop_result T G hl hlen v j)
  have hc : ∀ v : guessVars,
      ((List.finRange letters).foldl (guessLetter (indexOf G) (indexOf T)) v).clues =
        fun j => v.clues j ||| bitsAt T G j :=
    fun v => funext (fun j => guessLoop_clues T G hl hlen v j)
  have hn : ∀ v : guessVars,
      ((List.finRange letters).foldl (guessLetter (indexOf G) (indexOf T)) v).counts =
        fun L => if cnt G L.val = 0 then v.counts L else countFor T G L.val :=
    fun v => funext (fun L => guessLoop_counts T G v L)
  have hti := onTarget_index hs
  obtain ⟨t, ti, c, n⟩ := s
  simp only at hti
  subst hti
  unfold guess
  rw [if_neg (by simp [hlen]), newIndex_eq G hl hlen]
  simp only [hr, hc, hn, recorded]

/-! ## From letter codes to bytes -/

theorem lower_getD (w : List Nat) (hl : lower w) (hlen : w.length = length) (j : Fin length) :
    97 ≤ w.getD j.val 0 ∧ w.getD j.val 0 ≤ 122 := by
  have hj : j.val < w.length := by rw [hlen]; exact j.isLt
  rw [List.getD_eq_getElem _ _ hj]
  exact hl _ (List.getElem_mem _)

theorem letterOf_inj {a b : Nat} (ha : 97 ≤ a ∧ a ≤ 122) (hb : 97 ≤ b ∧ b ≤ 122) :
    letterOf a = letterOf b ↔ a = b := by
  rw [(letterOf_lower ha).1, (letterOf_lower hb).1]
  omega

theorem hasAt_byte (w : List Nat) (hl : lower w) (hlen : w.length = length) (c : Nat)
    (hc : 97 ≤ c ∧ c ≤ 122) (j : Fin length) :
    hasAt w (letterOf c) j.val = decide (w.getD j.val 0 = c) := by
  unfold hasAt
  rw [decide_eq_decide]
  exact letterOf_inj (lower_getD w hl hlen j) hc

theorem scored_green_iff (T G : List Nat) (hT : lower T) (hTlen : T.length = length)
    (hG : lower G) (hGlen : G.length = length) (j : Fin length) :
    scored T G j = clue.green ↔ G.getD j.val 0 = T.getD j.val 0 := by
  have h := hasAt_byte T hT hTlen (G.getD j.val 0) (lower_getD G hG hGlen j) j
  unfold scored clueFor letterAt
  rw [h]
  by_cases e : T.getD j.val 0 = G.getD j.val 0
  · rw [if_pos (decide_eq_true e)]
    exact ⟨fun _ => e.symm, fun _ => rfl⟩
  · rw [if_neg (by rw [decide_eq_true_eq]; exact e)]
    constructor
    · intro h2
      split at h2 <;> cases h2
    · intro h2
      exact absurd h2.symm e

theorem eq_of_getD (T G : List Nat) (hTlen : T.length = length) (hGlen : G.length = length) :
    (∀ j : Fin length, G.getD j.val 0 = T.getD j.val 0) ↔ G = T := by
  constructor
  · intro h
    match T, G, hTlen, hGlen with
    | [t0, t1, t2, t3, t4], [g0, g1, g2, g3, g4], _, _ =>
      have h0 : g0 = t0 := h ⟨0, by decide⟩
      have h1 : g1 = t1 := h ⟨1, by decide⟩
      have h2 : g2 = t2 := h ⟨2, by decide⟩
      have h3 : g3 = t3 := h ⟨3, by decide⟩
      have h4 : g4 = t4 := h ⟨4, by decide⟩
      rw [h0, h1, h2, h3, h4]
  · intro h j
    rw [h]

theorem countP_getD (w : List Nat) (hlen : w.length = length) (p : Nat → Bool) :
    (List.finRange length).countP (fun q => p (w.getD q.val 0)) = w.countP p := by
  match w, hlen with
  | [c0, c1, c2, c3, c4], _ =>
    rw [finRange_five]
    rfl

theorem cnt_byte (w : List Nat) (hl : lower w) (hlen : w.length = length) (c : Nat)
    (hc : 97 ≤ c ∧ c ≤ 122) : cnt w (letterOf c) = w.count c := by
  have h : (fun q : Fin length => hasAt w (letterOf c) q.val) =
      fun q => decide (w.getD q.val 0 = c) :=
    funext (fun q => hasAt_byte w hl hlen c hc q)
  have h2 := countP_getD w hlen (fun x => decide (x = c))
  unfold cnt
  rw [h, h2]
  unfold List.count
  congr 1

theorem both_byte (T G : List Nat) (hT : lower T) (hTlen : T.length = length)
    (hG : lower G) (hGlen : G.length = length) (c : Nat) (hc : 97 ≤ c ∧ c ≤ 122) :
    both T G (letterOf c) = matched T G c := by
  unfold both matched
  congr 1
  funext q
  rw [hasAt_byte T hT hTlen c hc q, hasAt_byte G hG hGlen c hc q]
  simp [Bool.decide_and]

theorem rank_byte (T G : List Nat) (hT : lower T) (hTlen : T.length = length)
    (hG : lower G) (hGlen : G.length = length) (j : Fin length) :
    rank T G (letterAt G j) j = unmatchedBefore T G j := by
  have hc := lower_getD G hG hGlen j
  unfold rank unmatchedBefore letterAt
  congr 1
  funext q
  rw [hasAt_byte T hT hTlen _ hc q, hasAt_byte G hG hGlen _ hc q]
  simp [Bool.decide_and]

/-- The clues of `guess`, in bytes. -/
theorem scored_byte (T G : List Nat) (hT : lower T) (hTlen : T.length = length)
    (hG : lower G) (hGlen : G.length = length) (j : Fin length) :
    scored T G j =
      if G.getD j.val 0 = T.getD j.val 0 then clue.green
      else if unmatchedBefore T G j < T.count (G.getD j.val 0) - matched T G (G.getD j.val 0)
        then clue.yellow
      else clue.gray := by
  have hc := lower_getD G hG hGlen j
  by_cases e : G.getD j.val 0 = T.getD j.val 0
  · rw [if_pos e]
    exact (scored_green_iff T G hT hTlen hG hGlen j).2 e
  · rw [if_neg e]
    have hh : hasAt T (letterAt G j) j.val = false := by
      unfold letterAt
      rw [hasAt_byte T hT hTlen _ hc j]
      exact decide_eq_false (fun h => e h.symm)
    unfold scored clueFor
    rw [hh, rank_byte T G hT hTlen hG hGlen j]
    unfold letterAt
    rw [cnt_byte T hT hTlen _ hc, both_byte T G hT hTlen hG hGlen _ hc]
    simp

theorem pat_eta (a : Fin length → Bool) : a = pat (a 0) (a 1) (a 2) (a 3) (a 4) := by
  funext q
  fin_cases q <;> rfl

set_option maxRecDepth 100000 in
theorem pat_count_green_yellow : ∀ a0 a1 a2 a3 a4 b0 b1 b2 b3 b4 : Bool,
    (List.finRange length).countP (fun j => pat a0 a1 a2 a3 a4 j && (pat b0 b1 b2 b3 b4 j ||
      decide ((before j).countP (fun q => pat a0 a1 a2 a3 a4 q && !pat b0 b1 b2 b3 b4 q) <
        (List.finRange length).countP (pat b0 b1 b2 b3 b4) -
          (List.finRange length).countP
            (fun q => pat a0 a1 a2 a3 a4 q && pat b0 b1 b2 b3 b4 q)))) =
      min ((List.finRange length).countP (pat a0 a1 a2 a3 a4))
        ((List.finRange length).countP (pat b0 b1 b2 b3 b4)) := by
  decide

/-- Among the positions that hold a letter in the guess, the green and yellow ones number
the smaller of the two counts of the letter. -/
theorem count_green_yellow (a b : Fin length → Bool) :
    (List.finRange length).countP (fun j => a j && (b j ||
      decide ((before j).countP (fun q => a q && !b q) <
        (List.finRange length).countP b -
          (List.finRange length).countP (fun q => a q && b q)))) =
      min ((List.finRange length).countP a) ((List.finRange length).countP b) := by
  rw [pat_eta a, pat_eta b]
  exact pat_count_green_yellow _ _ _ _ _ _ _ _ _ _

theorem scored_count (T G : List Nat) (hT : lower T) (hTlen : T.length = length)
    (hG : lower G) (hGlen : G.length = length) (c : Nat) (hc : 97 ≤ c ∧ c ≤ 122) :
    (List.finRange length).countP (fun j => decide (G.getD j.val 0 = c ∧
      (scored T G j = clue.green ∨ scored T G j = clue.yellow))) =
      min (G.count c) (T.count c) := by
  rw [← cnt_byte G hG hGlen c hc, ← cnt_byte T hT hTlen c hc]
  have h := count_green_yellow (fun q => hasAt G (letterOf c) q.val)
    (fun q => hasAt T (letterOf c) q.val)
  unfold cnt
  rw [← h]
  congr 1
  funext j
  by_cases hg : G.getD j.val 0 = c
  · have hL : letterAt G j = letterOf c := by unfold letterAt; rw [hg]
    have hgt : hasAt G (letterOf c) j.val = true := by
      rw [hasAt_byte G hG hGlen c hc j]; exact decide_eq_true hg
    unfold scored clueFor
    rw [hL]
    simp only [hg, hgt, true_and, Bool.true_and]
    unfold rank cnt both
    by_cases ht : hasAt T (letterOf c) j.val = true
    · simp [ht]
    · simp only [ht, Bool.false_eq_true, if_false, Bool.false_or]
      rw [decide_eq_decide]
      split <;> simp_all
  · have hgt : hasAt G (letterOf c) j.val = false := by
      rw [hasAt_byte G hG hGlen c hc j]; exact decide_eq_false hg
    rw [hgt, Bool.false_and]
    exact decide_eq_false (fun h => hg h.1)

/-! ## Fresh states -/

theorem onTarget_fresh (T : List Nat) (hT : lower T) (hlen : T.length = length) :
    onTarget (fresh T) T :=
  ⟨rfl, hlen, hT, newIndex_eq T hT hlen⟩

theorem newState_eq (T : List Nat) (hT : lower T) (hlen : T.length = length) :
    newState T = some (fresh T) := by
  unfold newState
  rw [if_neg (by simp [hlen]), newIndex_eq T hT hlen]
  rfl

/-! ## Hard mode -/

theorem and_two_pow_ne_zero (x i : Nat) : x &&& 2 ^ i ≠ 0 ↔ x.testBit i = true := by
  constructor
  · intro h
    by_contra hb
    apply h
    apply Nat.eq_of_testBit_eq
    intro k
    rw [Nat.testBit_and, Nat.testBit_two_pow, Nat.zero_testBit]
    by_cases hk : i = k
    · subst hk; simp [hb]
    · simp [hk]
  · intro h h0
    have := Nat.testBit_and x (2 ^ i) i
    rw [h0, Nat.zero_testBit, h, Nat.testBit_two_pow_self] at this
    simp at this

theorem wrongBits_eq (i : Nat) (hi : i < letters) : wrongBits i = 2 ^ i := by
  unfold wrongBits
  rw [Nat.one_shiftLeft]
  apply Nat.mod_eq_of_lt
  exact Nat.pow_lt_pow_right (by decide) (by unfold letters at hi; omega)

set_option maxRecDepth 100000 in
theorem byte_and : ∀ n : Fin 256,
    (n.val &&& 0x80 = 0x80 ↔ 128 ≤ n.val) ∧ n.val &&& 0x7f = n.val % 128 := by
  decide

theorem countProblem_fst (s : state) (wi : index) (i : Fin letters)
    (r : Bool × String × Nat × Int) (h : countProblem s wi i = some r) : r.1 = false := by
  unfold countProblem at h
  simp only at h
  split at h
  · split at h
    · split at h <;> (cases h; rfl)
    · cases h
  · split at h
    · cases h; rfl
    · cases h

theorem clueProblem_fst (s : state) (W : List Nat) (j : Fin length)
    (r : Bool × String × Nat × Int) (h : clueProblem s W j = some r) : r.1 = false := by
  unfold clueProblem at h
  simp only at h
  split at h
  · cases h; rfl
  · split at h
    · cases h; rfl
    · cases h

theorem hardModeInfo_eq (s : state) (W : List Nat) (hW : lower W) (hlen : W.length = length) :
    hardModeInfo s W =
      match (List.finRange letters).findSome? (countProblem s (indexOf W)) with
      | some r => some r
      | none =>
        match (List.finRange length).findSome? (clueProblem s W) with
        | some r => some r
        | none => some (true, "", 0, 0) := by
  unfold hardModeInfo
  rw [if_neg (by simp [hlen]), newIndex_eq W hW hlen]

/-- The validator accepts exactly when no iteration of either loop returns. -/
theorem hardModeOK_eq (s : state) (W : List Nat) (hW : lower W) (hlen : W.length = length) :
    hardModeOK s W = some (decide ((∀ i, countProblem s (indexOf W) i = none) ∧
      (∀ j, clueProblem s W j = none))) ∧
    (hardModeProblem s W = some none ↔ hardModeOK s W = some true) := by
  unfold hardModeOK hardModeProblem
  rw [hardModeInfo_eq s W hW hlen]
  cases h1 : (List.finRange letters).findSome? (countProblem s (indexOf W)) with
  | some r =>
    obtain ⟨i, _, hi⟩ := List.exists_of_findSome?_eq_some h1
    have hr := countProblem_fst s _ i r hi
    obtain ⟨ok, str, b, n⟩ := r
    simp only at hr
    subst hr
    have hne : ¬ ∀ i, countProblem s (indexOf W) i = none := fun h => by
      rw [h i] at hi; cases hi
    constructor
    · simp [hne]
    · by_cases hn : n = -1 <;> simp [hn]
  | none =>
    have hall : ∀ i, countProblem s (indexOf W) i = none := fun i =>
      (List.findSome?_eq_none_iff.1 h1) i (List.mem_finRange i)
    cases h2 : (List.finRange length).findSome? (clueProblem s W) with
    | some r =>
      obtain ⟨j, _, hj⟩ := List.exists_of_findSome?_eq_some h2
      have hr := clueProblem_fst s W j r hj
      obtain ⟨ok, str, b, n⟩ := r
      simp only at hr
      subst hr
      have hne : ¬ ∀ j, clueProblem s W j = none := fun h => by
        rw [h j] at hj; cases hj
      constructor
      · simp [hne]
      · by_cases hn : n = -1 <;> simp [hn]
    | none =>
      have hall2 : ∀ j, clueProblem s W j = none := fun j =>
        (List.findSome?_eq_none_iff.1 h2) j (List.mem_finRange j)
      constructor
      · simp [hall, hall2]
      · simp

theorem letterOf_code (i : Fin letters) :
    letterOf (i.val + 97) = i.val ∧ 97 ≤ i.val + 97 ∧ i.val + 97 ≤ 122 := by
  have := i.isLt
  unfold letterOf letters at *
  omega

theorem indexOf_count_byte (W : List Nat) (hW : lower W) (hlen : W.length = length)
    (i : Fin letters) : (indexOf W i).count = W.count (i.val + 97) := by
  rw [indexOf_count_eq, ← cnt_byte W hW hlen (i.val + 97) (letterOf_code i).2,
    (letterOf_code i).1]

theorem countProblem_none_iff (s : state) (W : List Nat) (hW : lower W)
    (hlen : W.length = length) (i : Fin letters) (hn : s.counts i < 256) :
    countProblem s (indexOf W) i = none ↔
      (s.counts i &&& 0x80 = 0x80 → W.count (i.val + 97) = s.counts i &&& 0x7f) ∧
      (s.counts i &&& 0x80 ≠ 0x80 → s.counts i ≤ W.count (i.val + 97)) := by
  have hb := byte_and ⟨s.counts i, hn⟩
  simp only at hb
  unfold countProblem
  simp only [indexOf_count_byte W hW hlen i]
  by_cases he : s.counts i &&& 0x80 = 0x80
  · rw [if_pos he]
    by_cases hcount : W.count (i.val + 97) = s.counts i &&& 0x7f
    · simp [he, hcount]
    · rw [if_pos hcount]
      constructor
      · intro h; split at h <;> cases h
      · intro h; exact absurd (h.1 he) hcount
  · rw [if_neg he]
    have hlow : s.counts i &&& 0x7f = s.counts i := by
      have h1 := hb.2
      have h2 : ¬ 128 ≤ s.counts i := fun h => he (hb.1.2 h)
      omega
    rw [hlow]
    by_cases hlt : W.count (i.val + 97) < s.counts i
    · rw [if_pos hlt]
      constructor
      · intro h; cases h
      · intro h; have := h.2 he; omega
    · rw [if_neg hlt]
      simp only [true_iff]
      exact ⟨fun h => absurd h he, fun _ => by omega⟩

theorem clueProblem_none_iff (s : state) (W : List Nat) (hW : lower W)
    (hlen : W.length = length) (j : Fin length) (hq : s.clues j < 2 ^ 32) :
    clueProblem s W j = none ↔
      (s.clues j >>> 27 ≠ 0 → letterOf (W.getD j.val 0) + 1 = s.clues j >>> 27) ∧
      (s.clues j).testBit (letterOf (W.getD j.val 0)) = false := by
  have hL : letterOf (W.getD j.val 0) < letters := letterAt_lt W hW hlen j
  have hg : s.clues j >>> 27 < 32 := by
    rw [Nat.shiftRight_eq_div_pow]
    have : (2 : Nat) ^ 27 = 134217728 := by norm_num
    have h32 : (2 : Nat) ^ 32 = 4294967296 := by norm_num
    rw [this]
    rw [h32] at hq
    omega
  have hbit : s.clues j &&& (1 <<< letterOf (W.getD j.val 0)) % 2 ^ 32 ≠ 0 ↔
      (s.clues j).testBit (letterOf (W.getD j.val 0)) = true := by
    have := wrongBits_eq _ hL
    unfold wrongBits at this
    rw [this]
    exact and_two_pow_ne_zero _ _
  unfold clueProblem
  simp only [show 32 - length = 27 from rfl]
  by_cases h1 : s.clues j >>> 27 ≠ 0 ∧
      letterOf (W.getD j.val 0) ≠ (s.clues j >>> 27 + 2 ^ 32 - 1) % 2 ^ 32 % 256
  · rw [if_pos h1]
    constructor
    · intro h; cases h
    · intro h
      have h2 := h.1 h1.1
      have h3 := h1.2
      exfalso
      apply h3
      have h32 : (2 : Nat) ^ 32 = 4294967296 := by norm_num
      rw [h32]
      omega
  · rw [if_neg h1]
    have hgreen : s.clues j >>> 27 ≠ 0 →
        letterOf (W.getD j.val 0) + 1 = s.clues j >>> 27 := by
      intro hne
      have h2 : ¬ letterOf (W.getD j.val 0) ≠
          (s.clues j >>> 27 + 2 ^ 32 - 1) % 2 ^ 32 % 256 := fun h => h1 ⟨hne, h⟩
      have h3 := not_not.1 h2
      have h32 : (2 : Nat) ^ 32 = 4294967296 := by norm_num
      rw [h32] at h3
      omega
    by_cases h4 : (s.clues j).testBit (letterOf (W.getD j.val 0)) = true
    · rw [if_pos (hbit.2 h4)]
      constructor
      · intro h; cases h
      · intro h; rw [h.2] at h4; cases h4
    · rw [if_neg (fun h => h4 (hbit.1 h))]
      simp only [true_iff]
      exact ⟨hgreen, by simpa using h4⟩

/-! ## States after a guess -/

theorem onTarget_recorded (s : state) (T G : List Nat) (hs : onTarget s T) :
    onTarget (recorded s T G) T := hs

theorem recorded_idem (s : state) (T G : List Nat) :
    recorded (recorded s T G) T G = recorded s T G := by
  unfold recorded
  simp only
  congr 1
  · funext j
    rw [Nat.lor_assoc, Nat.or_self]
  · funext L
    by_cases h : cnt G L.val = 0 <;> simp [h]

/-! ## The counts of an index sum to the length -/

theorem sum_indicator (a : Nat) (ha : a < letters) :
    ∑ L : Fin letters, (if a = L.val then 1 else 0) = 1 := by
  have h : ∀ L : Fin letters, (if a = L.val then 1 else 0) =
      if (⟨a, ha⟩ : Fin letters) = L then 1 else 0 := by
    intro L
    by_cases e : a = L.val
    · have : (⟨a, ha⟩ : Fin letters) = L := Fin.ext e
      simp [e, this]
    · have : (⟨a, ha⟩ : Fin letters) ≠ L := fun h => e (by rw [← h])
      simp [e, this]
  simp only [h]
  simp

theorem cnt_sum (W : List Nat) (hW : lower W) (hlen : W.length = length) :
    ∑ L : Fin letters, cnt W L.val = 5 := by
  have hc : ∀ L : Fin letters, cnt W L.val =
      (if letterAt W 0 = L.val then 1 else 0) + (if letterAt W 1 = L.val then 1 else 0) +
      (if letterAt W 2 = L.val then 1 else 0) + (if letterAt W 3 = L.val then 1 else 0) +
      (if letterAt W 4 = L.val then 1 else 0) := by
    intro L
    unfold cnt
    rw [finRange_five]
    simp only [List.countP_cons, List.countP_nil, hasAt_letterAt, decide_eq_true_eq]
    omega
  simp only [hc, Finset.sum_add_distrib]
  rw [sum_indicator _ (letterAt_lt W hW hlen 0), sum_indicator _ (letterAt_lt W hW hlen 1),
    sum_indicator _ (letterAt_lt W hW hlen 2), sum_indicator _ (letterAt_lt W hW hlen 3),
    sum_indicator _ (letterAt_lt W hW hlen 4)]

/-! ## The loop of `metricImpl.run` -/

theorem runInv_body {T : Type} [LinearOrder T] [Zero T] (mi : metricImpl T)
    (b : List Nat × histogram → T) (l : List (List Nat × histogram))
    (acc : T × List (List Nat)) (e : List Nat × histogram)
    (hb : mi.badnessFunc e.2 = some (b e)) (h : runInv b l acc) :
    ∃ acc1, mi.body acc e = some acc1 ∧ runInv b (l ++ [e]) acc1 := by
  obtain ⟨h1, h2, h3⟩ := h
  unfold metricImpl.body
  rw [hb]
  simp only
  by_cases hlt : acc.1 < b e
  · rw [if_pos hlt]
    refine ⟨_, rfl, ?_, ?_, ?_⟩
    · intro x hx
      rcases List.mem_append.1 hx with hx | hx
      · exact le_of_lt (lt_of_le_of_lt (h1 x hx) hlt)
      · rw [List.mem_singleton.1 hx]
    · exact Or.inr ⟨e, by simp, rfl⟩
    · have hnone : l.filter (fun x => decide (b x = b e)) = [] := by
        rw [List.filter_eq_nil_iff]
        intro x hx
        have := h1 x hx
        simp only [decide_eq_true_eq]
        exact ne_of_lt (lt_of_le_of_lt this hlt)
      simp [List.filter_append, hnone]
  · rw [if_neg hlt]
    by_cases heq : acc.1 = b e
    · rw [if_pos heq]
      refine ⟨_, rfl, ?_, ?_, ?_⟩
      · intro x hx
        rcases List.mem_append.1 hx with hx | hx
        · exact h1 x hx
        · rw [List.mem_singleton.1 hx]; exact le_of_eq heq.symm
      · exact Or.inr ⟨e, by simp, heq.symm⟩
      · simp only [List.filter_append, List.map_append, h3]
        simp [heq]
    · rw [if_neg heq]
      refine ⟨_, rfl, ?_, ?_, ?_⟩
      · intro x hx
        rcases List.mem_append.1 hx with hx | hx
        · exact h1 x hx
        · rw [List.mem_singleton.1 hx]; exact le_of_not_lt hlt
      · rcases h2 with h2 | ⟨x, hx, hxe⟩
        · exact Or.inl h2
        · exact Or.inr ⟨x, List.mem_append_left _ hx, hxe⟩
      · have hne : ¬ b e = acc.1 := fun h => heq h.symm
        simp [List.filter_append, h3, hne]

theorem runInv_loop {T : Type} [LinearOrder T] [Zero T] (mi : metricImpl T)
    (b : List Nat × histogram → T) (es : List (List Nat × histogram)) :
    ∀ (l : List (List Nat × histogram)) (acc : T × List (List Nat)),
      (∀ e ∈ es, mi.badnessFunc e.2 = some (b e)) → runInv b l acc →
      ∃ acc1, mi.loop es acc = some acc1 ∧ runInv b (l ++ es) acc1 := by
  induction es with
  | nil =>
    intro l acc _ h
    exact ⟨acc, rfl, by simpa using h⟩
  | cons e es ih =>
    intro l acc hb h
    obtain ⟨acc1, h1, h2⟩ := runInv_body mi b l acc e (hb e (List.mem_cons_self _ _)) h
    obtain ⟨acc2, h3, h4⟩ := ih (l ++ [e]) acc1
      (fun x hx => hb x (List.mem_cons_of_mem _ hx)) h2
    refine ⟨acc2, ?_, by simpa using h4⟩
    unfold metricImpl.loop
    rw [h1]
    exact h3

/-! ## The metric "worst" -/

theorem largestNonzero_unique (r : histogram) (k1 k2 : Fin m) (h1 : largestNonzero r k1)
    (h2 : largestNonzero r k2) : k1 = k2 :=
  le_antisymm (h2.2 k1 h1.1) (h1.2 k2 h2.1)

theorem worstBadness_spec (r : histogram) (hpos : ∀ i, 0 ≤ r i) (hne : ∃ i, r i ≠ 0) :
    ∃ k : Fin m, worstBadness r = some (k.val : Int) ∧ largestNonzero r k := by
  have hgt : ∀ i, r i > 0 ↔ r i ≠ 0 := fun i =>
    ⟨fun h => ne_of_gt h, fun h => lt_of_le_of_ne (hpos i) (Ne.symm h)⟩
  cases hw : worstBadness r with
  | none =>
    exfalso
    obtain ⟨i, hi⟩ := hne
    unfold worstBadness at hw
    have := (List.findSome?_eq_none_iff.1 hw) i (by simp)
    rw [if_pos ((hgt i).2 hi)] at this
    cases this
  | some v =>
    unfold worstBadness at hw
    obtain ⟨l1, k, l2, hl, hk, hbefore⟩ := List.findSome?_eq_some_iff.1 hw
    have hrk : r k > 0 := by
      by_contra hn
      rw [if_neg hn] at hk
      cases hk
    rw [if_pos hrk] at hk
    refine ⟨k, by rw [← Option.some.inj hk], (hgt k).1 hrk, ?_⟩
    intro i hi
    by_contra hlt
    have hlt2 : k < i := lt_of_not_le hlt
    have hpw : ((List.finRange m).reverse).Pairwise (· > ·) := by
      rw [List.pairwise_reverse]
      exact List.pairwise_lt_finRange m
    rw [hl] at hpw
    have hmem : i ∈ l1 ++ k :: l2 := by rw [← hl]; simp
    rcases List.mem_append.1 hmem with h1 | h1
    · have := hbefore i h1
      rw [if_pos ((hgt i).2 hi)] at this
      cases this
    · rcases List.mem_cons.1 h1 with h2 | h2
      · exact absurd h2 (ne_of_gt hlt2)
      · have h3 := (List.pairwise_append.1 hpw).2.1
        have h4 := (List.pairwise_cons.1 h3).1 i h2
        exact absurd hlt2 (not_lt_of_gt h4)

theorem worst_run_spec (results : List (List Nat × histogram)) (hne : results ≠ [])
    (hkeys : (results.map Prod.fst).Nodup)
    (hhist : ∀ e ∈ results, (∀ i, 0 ≤ e.2 i) ∧ ∃ i, e.2 i ≠ 0) :
    ∃ (worst : Int) (words : List (List Nat)),
      worstMetric.run results = some ("worst", worst, words) ∧
      (∃ e ∈ results, ∃ k : Fin m, largestNonzero e.2 k ∧ (k.val : Int) = worst) ∧
      (∀ e ∈ results, ∀ i : Fin m, e.2 i ≠ 0 → (i.val : Int) ≤ worst) ∧
      (∀ w, w ∈ words ↔
        ∃ r, (w, r) ∈ results ∧ ∃ k : Fin m, largestNonzero r k ∧ (k.val : Int) = worst) ∧
      words.Sorted (· ≤ ·) ∧ words.Nodup := by
  -- the badness of an entry, as a total function
  let b : List Nat × histogram → Int := fun e => (worstBadness e.2).getD 0
  have hb : ∀ e ∈ results, ∃ k : Fin m, worstMetric.badnessFunc e.2 = some (b e) ∧
      largestNonzero e.2 k ∧ (k.val : Int) = b e := by
    intro e he
    obtain ⟨k, hk1, hk2⟩ := worstBadness_spec e.2 (hhist e he).1 (hhist e he).2
    refine ⟨k, ?_, hk2, ?_⟩
    · show worstBadness e.2 = some ((worstBadness e.2).getD 0)
      rw [hk1]; rfl
    · show (k.val : Int) = (worstBadness e.2).getD 0
      rw [hk1]; rfl
  have hb0 : ∀ e ∈ results, 0 ≤ b e := by
    intro e he
    obtain ⟨k, _, _, hk⟩ := hb e he
    rw [← hk]
    exact Int.natCast_nonneg _
  obtain ⟨acc, hloop, h1, h2, h3⟩ := runInv_loop worstMetric b results [] (0, [])
    (fun e he => by obtain ⟨k, hk, _⟩ := hb e he; exact hk)
    ⟨fun e he => absurd he (List.not_mem_nil e), Or.inl rfl, rfl⟩
  rw [List.nil_append] at h1 h2 h3
  -- the final `worst` is the badness of an entry
  have hex : ∃ e ∈ results, b e = acc.1 := by
    rcases h2 with h2 | h2
    · obtain ⟨e, he⟩ := List.exists_mem_of_ne_nil results hne
      refine ⟨e, he, le_antisymm (h1 e he) ?_⟩
      rw [h2]
      exact hb0 e he
    · exact h2
  have hperm := List.perm_insertionSort (· ≤ ·) acc.2
  refine ⟨acc.1, acc.2.insertionSort (· ≤ ·), ?_, ?_, ?_, ?_, ?_, ?_⟩
  · unfold metricImpl.run
    rw [hloop]
    rfl
  · obtain ⟨e, he, hbe⟩ := hex
    obtain ⟨k, _, hk2, hk3⟩ := hb e he
    exact ⟨e, he, k, hk2, by rw [hk3, hbe]⟩
  · intro e he i hi
    obtain ⟨k, _, hk2, hk3⟩ := hb e he
    have h4 : i ≤ k := hk2.2 i hi
    have h5 : (i.val : Int) ≤ (k.val : Int) := Int.ofNat_le.2 h4
    exact le_trans h5 (by rw [hk3]; exact h1 e he)
  · intro w
    rw [hperm.mem_iff, h3]
    simp only [List.mem_map, List.mem_filter, decide_eq_true_eq]
    constructor
    · rintro ⟨e, ⟨he, hbe⟩, rfl⟩
      obtain ⟨k, _, hk2, hk3⟩ := hb e he
      exact ⟨e.2, he, k, hk2, by rw [hk3, hbe]⟩
    · rintro ⟨r, hr, k, hk2, hk3⟩
      obtain ⟨k1, _, hk4, hk5⟩ := hb (w, r) hr
      have := largestNonzero_unique r k k1 hk2 hk4
      subst this
      exact ⟨(w, r), ⟨hr, by rw [← hk5, hk3]⟩, rfl⟩
  · exact List.sorted_insertionSort (· ≤ ·) acc.2
  · rw [hperm.nodup_iff, h3]
    exact List.Nodup.sublist ((List.filter_sublist results).map Prod.fst) hkeys

/-! ## The metric "best" -/

theorem smallestNonzero_unique (r : histogram) (k1 k2 : Fin m) (h1 : smallestNonzero r k1)
    (h2 : smallestNonzero r k2) : k1 = k2 :=
  le_antisymm (h1.2 k2 h2.1) (h2.2 k1 h1.1)

theorem bestBadness_spec (r : histogram) (hpos : ∀ i, 0 ≤ r i) (hne : ∃ i, r i ≠ 0) :
    ∃ k : Fin m, bestBadness r = some (k.val : Int) ∧ smallestNonzero r k := by
  have hgt : ∀ i, r i > 0 ↔ r i ≠ 0 := fun i =>
    ⟨fun h => ne_of_gt h, fun h => lt_of_le_of_ne (hpos i) (Ne.symm h)⟩
  cases hw : bestBadness r with
  | none =>
    exfalso
    obtain ⟨i, hi⟩ := hne
    unfold bestBadness at hw
    have := (List.findSome?_eq_none_iff.1 hw) i (by simp)
    rw [if_pos ((hgt i).2 hi)] at this
    cases this
  | some v =>
    unfold bestBadness at hw
    obtain ⟨l1, k, l2, hl, hk, hbefore⟩ := List.findSome?_eq_some_iff.1 hw
    have hrk : r k > 0 := by
      by_contra hn
      rw [if_neg hn] at hk
      cases hk
    rw [if_pos hrk] at hk
    refine ⟨k, by rw [← Option.some.inj hk], (hgt k).1 hrk, ?_⟩
    intro i hi
    by_contra hlt
    have hlt2 : i < k := lt_of_not_le hlt
    have hpw : (List.finRange m).Pairwise (· < ·) := List.pairwise_lt_finRange m
    rw [hl] at hpw
    have hmem : i ∈ l1 ++ k :: l2 := by rw [← hl]; simp
    rcases List.mem_append.1 hmem with h1 | h1
    · have := hbefore i h1
      rw [if_pos ((hgt i).2 hi)] at this
      cases this
    · rcases List.mem_cons.1 h1 with h2 | h2
      · exact absurd h2 (ne_of_lt hlt2)
      · have h3 := (List.pairwise_append.1 hpw).2.1
        have h4 := (List.pairwise_cons.1 h3).1 i h2
        exact absurd hlt2 (not_lt_of_gt h4)

/-- What `run` returns for a metric whose badness is the index singled out by `P`. -/
theorem run_spec_index (mi : metricImpl Int) (P : histogram → Fin m → Prop)
    (huniq : ∀ r k1 k2, P r k1 → P r k2 → k1 = k2)
    (results : List (List Nat × histogram)) (hne : results ≠ [])
    (hkeys : (results.map Prod.fst).Nodup)
    (hP : ∀ e ∈ results, ∃ k : Fin m, mi.badnessFunc e.2 = some (k.val : Int) ∧ P e.2 k) :
    ∃ (worst : Int) (words : List (List Nat)),
      mi.run results = some (mi.name, worst, words) ∧
      (∃ e ∈ results, ∃ k : Fin m, P e.2 k ∧ (k.val : Int) = worst) ∧
      (∀ e ∈ results, ∀ k : Fin m, P e.2 k → (k.val : Int) ≤ worst) ∧
      (∀ w, w ∈ words ↔ ∃ r, (w, r) ∈ results ∧ ∃ k : Fin m, P r k ∧ (k.val : Int) = worst) ∧
      words.Sorted (· ≤ ·) ∧ words.Nodup := by
  let b : List Nat × histogram → Int := fun e => (mi.badnessFunc e.2).getD 0
  have hb : ∀ e ∈ results, ∃ k : Fin m, mi.badnessFunc e.2 = some (b e) ∧
      P e.2 k ∧ (k.val : Int) = b e := by
    intro e he
    obtain ⟨k, hk1, hk2⟩ := hP e he
    refine ⟨k, ?_, hk2, ?_⟩
    · show mi.badnessFunc e.2 = some ((mi.badnessFunc e.2).getD 0)
      rw [hk1]; rfl
    · show (k.val : Int) = (mi.badnessFunc e.2).getD 0
      rw [hk1]; rfl
  have hb0 : ∀ e ∈ results, 0 ≤ b e := by
    intro e he
    obtain ⟨k, _, _, hk⟩ := hb e he
    rw [← hk]
    exact Int.natCast_nonneg _
  obtain ⟨acc, hloop, h1, h2, h3⟩ := runInv_loop mi b results [] (0, [])
    (fun e he => by obtain ⟨k, hk, _⟩ := hb e he; exact hk)
    ⟨fun e he => absurd he (List.not_mem_nil e), Or.inl rfl, rfl⟩
  rw [List.nil_append] at h1 h2 h3
  have hex : ∃ e ∈ results, b e = acc.1 := by
    rcases h2 with h2 | h2
    · obtain ⟨e, he⟩ := List.exists_mem_of_ne_nil results hne
      refine ⟨e, he, le_antisymm (h1 e he) ?_⟩
      rw [h2]
      exact hb0 e he
    · exact h2
  have hperm := List.perm_insertionSort (· ≤ ·) acc.2
  refine ⟨acc.1, acc.2.insertionSort (· ≤ ·), ?_, ?_, ?_, ?_, ?_, ?_⟩
  · unfold metricImpl.run
    rw [hloop]
  · obtain ⟨e, he, hbe⟩ := hex
    obtain ⟨k, _, hk2, hk3⟩ := hb e he
    exact ⟨e, he, k, hk2, by rw [hk3, hbe]⟩
  · intro e he k hk
    obtain ⟨k1, _, hk2, hk3⟩ := hb e he
    have := huniq e.2 k k1 hk hk2
    subst this
    rw [hk3]
    exact h1 e he
  · intro w
    rw [hperm.mem_iff, h3]
    simp only [List.mem_map, List.mem_filter, decide_eq_true_eq]
    constructor
    · rintro ⟨e, ⟨he, hbe⟩, rfl⟩
      obtain ⟨k, _, hk2, hk3⟩ := hb e he
      exact ⟨e.2, he, k, hk2, by rw [hk3, hbe]⟩
    · rintro ⟨r, hr, k, hk2, hk3⟩
      obtain ⟨k1, _, hk4, hk5⟩ := hb (w, r) hr
      have := huniq r k k1 hk2 hk4
      subst this
      exact ⟨(w, r), ⟨hr, by rw [← hk5, hk3]⟩, rfl⟩
  · exact List.sorted_insertionSort (· ≤ ·) acc.2
  · rw [hperm.nodup_iff, h3]
    exact List.Nodup.sublist ((List.filter_sublist results).map Prod.fst) hkeys

/-! ## The metrics "average" and "not-in-6" -/

theorem wrapInt_eq (x : Int) (h0 : 0 ≤ x) (h1 : x < 9223372036854775808) : wrapInt x = x := by
  unfold wrapInt
  omega

theorem sum_nonneg_list (f : Fin m → Int) (hf : ∀ i, 0 ≤ f i) (l : List (Fin m)) :
    0 ≤ (l.map f).sum := by
  induction l with
  | nil => simp
  | cons a l ih =>
    rw [List.map_cons, List.sum_cons]
    have := hf a
    omega

/-- A loop that adds non-negative terms to a Go `int` computes the exact sum as long as the
exact sum fits. -/
theorem foldl_wrap_sum (f : Fin m → Int) (hf : ∀ i, 0 ≤ f i) (l : List (Fin m)) :
    ∀ s : Int, 0 ≤ s → s + (l.map f).sum < 9223372036854775808 →
      l.foldl (fun (s : Int) i => wrapInt (s + wrapInt (f i))) s = s + (l.map f).sum ∧
      l.foldl (fun (s : Int) i => wrapInt (s + f i)) s = s + (l.map f).sum := by
  induction l with
  | nil => intro s _ _; simp
  | cons a l ih =>
    intro s hs hlt
    rw [List.map_cons, List.sum_cons] at hlt
    have ha := hf a
    have hl := sum_nonneg_list f hf l
    have h1 : wrapInt (f a) = f a := wrapInt_eq _ ha (by omega)
    have h2 : wrapInt (s + f a) = s + f a := wrapInt_eq _ (by omega) (by omega)
    obtain ⟨i1, i2⟩ := ih (s + f a) (by omega) (by omega)
    rw [List.foldl_cons, List.foldl_cons, h1, h2, i1, i2, List.map_cons, List.sum_cons]
    constructor <;> omega

theorem sum_filter_split (f : Fin m → Int) (l : List (Fin m)) :
    ((l.filter (fun i => decide (i.val ≤ 6))).map f).sum +
      ((l.filter (fun i => decide (6 + 1 ≤ i.val))).map f).sum = (l.map f).sum := by
  induction l with
  | nil => simp
  | cons a l ih =>
    by_cases h : a.val ≤ 6
    · have h2 : ¬ (6 + 1 ≤ a.val) := by omega
      simp only [List.filter_cons, h, h2, decide_True, decide_False, if_true,
        Bool.false_eq_true, if_false, List.map_cons, List.sum_cons]
      omega
    · have h2 : 6 + 1 ≤ a.val := by omega
      simp only [List.filter_cons, h, h2, decide_True, decide_False, if_true,
        Bool.false_eq_true, if_false, List.map_cons, List.sum_cons]
      omega

theorem foldl_pair {α β ι : Type} (g1 : α → ι → α) (g2 : β → ι → β) (l : List ι) :
    ∀ (a : α) (b : β),
      l.foldl (fun (p : α × β) i => (g1 p.1 i, g2 p.2 i)) (a, b) =
        (l.foldl g1 a, l.foldl g2 b) := by
  induction l with
  | nil => intro a b; rfl
  | cons x l ih => intro a b; rw [List.foldl_cons, ih]; rfl

theorem sum_filter_ite (f : Fin m → Int) (p : Fin m → Bool) (l : List (Fin m)) :
    ((l.filter p).map f).sum = (l.map (fun i => if p i then f i else 0)).sum := by
  induction l with
  | nil => simp
  | cons a l ih =>
    cases h : p a <;> simp [List.filter_cons, h, ih]

theorem list_sum_univ (f : Fin m → Int) : ((List.finRange m).map f).sum = ∑ i, f i :=
  (Fin.sum_univ_def f).symm

theorem averageBadness_eq (r : histogram) (hpos : ∀ i, 0 ≤ r i)
    (h1 : ∑ i : Fin m, (i.val : Int) * r i < 9223372036854775808)
    (h2 : ∑ i : Fin m, r i < 9223372036854775808) :
    averageBadness r =
      some (((∑ i : Fin m, (i.val : Int) * r i : Int) : ℚ) / ((∑ i : Fin m, r i : Int) : ℚ)) := by
  unfold averageBadness averageSums
  rw [foldl_pair (fun (s : Int) (i : Fin m) => wrapInt (s + wrapInt ((i.val : Int) * r i)))
    (fun (s : Int) (i : Fin m) => wrapInt (s + r i))]
  have ha := (foldl_wrap_sum (fun i => (i.val : Int) * r i)
    (fun i => Int.mul_nonneg (Int.natCast_nonneg _) (hpos i)) (List.finRange m) 0 (le_refl _)
    (by rw [list_sum_univ]; omega)).1
  have hb := (foldl_wrap_sum r hpos (List.finRange m) 0 (le_refl _)
    (by rw [list_sum_univ]; omega)).2
  simp only at ha hb
  rw [ha, hb, list_sum_univ, list_sum_univ, zero_add, zero_add]

theorem notIn6Badness_eq (r : histogram) (hpos : ∀ i, 0 ≤ r i)
    (h2 : ∑ i : Fin m, r i < 9223372036854775808) :
    notIn6Badness r =
      some (100 * ((∑ i : Fin m, (if 6 < i.val then r i else 0) : Int) : ℚ) /
        ((∑ i : Fin m, r i : Int) : ℚ)) := by
  have hsplit := sum_filter_split r (List.finRange m)
  have hw0 := sum_nonneg_list r hpos ((List.finRange m).filter (fun i => decide (i.val ≤ 6)))
  have hl0 := sum_nonneg_list r hpos
    ((List.finRange m).filter (fun i => decide (6 + 1 ≤ i.val)))
  rw [list_sum_univ] at hsplit
  have hw := (foldl_wrap_sum r hpos ((List.finRange m).filter (fun i => decide (i.val ≤ 6))) 0
    (le_refl _) (by omega)).2
  have hl := (foldl_wrap_sum r hpos
    ((List.finRange m).filter (fun i => decide (6 + 1 ≤ i.val))) 0 (le_refl _) (by omega)).2
  have hloss : (((List.finRange m).filter (fun i => decide (6 + 1 ≤ i.val))).map r).sum =
      ∑ i : Fin m, (if 6 < i.val then r i else 0) := by
    rw [sum_filter_ite, list_sum_univ]
    apply Finset.sum_congr rfl
    intro i _
    by_cases h : 6 < i.val
    · have : 6 + 1 ≤ i.val := h
      simp [h, this]
    · have : ¬ 6 + 1 ≤ i.val := h
      simp [h, this]
  unfold notIn6Badness notIn6Counts
  simp only
  rw [hw, hl, zero_add, zero_add, wrapInt_eq _ (by omega) (by omega), hsplit, hloss]

set_option maxRecDepth 1000000 in
theorem averageSums_sample : averageSums sampleHist = (22, 5) := by decide

set_option maxRecDepth 1000000 in
theorem notIn6Counts_sample : notIn6Counts sampleHist = (5, 0) := by decide

/-! ## The two fields of a `clues` entry -/

theorem shiftRight_or (a b n : Nat) : (a ||| b) >>> n = a >>> n ||| b >>> n := by
  apply Nat.eq_of_testBit_eq
  intro k
  simp only [Nat.testBit_shiftRight, Nat.testBit_or]

theorem greenBits_eq (L : Nat) (hL : L < letters) : greenBits L = (L + 1) <<< 27 := by
  unfold greenBits
  unfold letters at hL
  have h1 : (L + 1) % 2 ^ 32 = L + 1 := Nat.mod_eq_of_lt (by norm_num; omega)
  rw [h1]
  show ((L + 1) <<< 27) % 2 ^ 32 = (L + 1) <<< 27
  apply Nat.mod_eq_of_lt
  rw [Nat.shiftLeft_eq]
  norm_num
  omega

theorem wrongBits_shift (L : Nat) (hL : L < letters) : wrongBits L >>> 27 = 0 := by
  rw [wrongBits_eq L hL, Nat.shiftRight_eq_div_pow]
  apply Nat.div_eq_of_lt
  exact Nat.pow_lt_pow_right (by decide) (by unfold letters at hL; omega)

theorem greenBits_shift (L : Nat) (hL : L < letters) : greenBits L >>> 27 = L + 1 := by
  rw [greenBits_eq L hL, Nat.shiftLeft_eq, Nat.shiftRight_eq_div_pow]
  exact Nat.mul_div_cancel _ (by norm_num)

theorem wrongBits_testBit (L k : Nat) (hL : L < letters) :
    (wrongBits L).testBit k = decide (L = k) := by
  rw [wrongBits_eq L hL, Nat.testBit_two_pow]

theorem greenBits_testBit (L k : Nat) (hL : L < letters) (hk : k < 27) :
    (greenBits L).testBit k = false := by
  rw [greenBits_eq L hL, Nat.testBit_shiftLeft]
  have : ¬ (k ≥ 27) := by omega
  simp [this]

theorem wrongBits_lt (L : Nat) : wrongBits L < 2 ^ 32 := by
  unfold wrongBits
  exact Nat.mod_lt _ (by norm_num)

theorem greenBits_lt (L : Nat) : greenBits L < 2 ^ 32 := by
  unfold greenBits
  exact Nat.mod_lt _ (by norm_num)

/-- Whether guess and target hold the same letter at position `j`. -/
theorem hasAt_target (T G : List Nat) (j : Fin length) :
    hasAt T (letterAt G j) j.val = decide (letterAt T j = letterAt G j) := rfl

/-- The green field of `clues[j]` after a guess. -/
theorem recorded_green (s : state) (T G : List Nat) (hG : lower G) (hlen : G.length = length)
    (j : Fin length) :
    (recorded s T G).clues j >>> 27 =
      if letterAt T j = letterAt G j then s.clues j >>> 27 ||| (letterAt T j + 1)
      else s.clues j >>> 27 := by
  have hL := letterAt_lt G hG hlen j
  show (s.clues j ||| bitsAt T G j) >>> 27 = _
  unfold bitsAt
  rw [hasAt_target, shiftRight_or]
  by_cases h : letterAt T j = letterAt G j
  · simp only [h, decide_True, if_true]
    rw [greenBits_shift _ hL]
  · simp only [h, decide_False, Bool.false_eq_true, if_false]
    rw [wrongBits_shift _ hL, Nat.or_zero]

/-- The wrong-letter bits of `clues[j]` after a guess. -/
theorem recorded_testBit (s : state) (T G : List Nat) (hG : lower G)
    (hlen : G.length = length) (j : Fin length) (k : Nat) (hk : k < 27) :
    ((recorded s T G).clues j).testBit k =
      ((s.clues j).testBit k || (decide (letterAt G j = k) &&
        !decide (letterAt T j = letterAt G j))) := by
  have hL := letterAt_lt G hG hlen j
  show (s.clues j ||| bitsAt T G j).testBit k = _
  unfold bitsAt
  rw [hasAt_target, Nat.testBit_or]
  by_cases h : letterAt T j = letterAt G j
  · simp only [h, decide_True, if_true, Bool.not_true, Bool.and_false, Bool.or_false]
    rw [greenBits_testBit _ k hL hk, Bool.or_false]
  · simp only [h, decide_False, Bool.false_eq_true, if_false, Bool.not_false, Bool.and_true]
    rw [wrongBits_testBit _ k hL]

theorem recorded_lt (s : state) (T G : List Nat) (j : Fin length) (h : s.clues j < 2 ^ 32) :
    (recorded s T G).clues j < 2 ^ 32 := by
  show s.clues j ||| bitsAt T G j < 2 ^ 32
  apply Nat.or_lt_two_pow h
  unfold bitsAt
  split
  · exact greenBits_lt _
  · exact wrongBits_lt _

theorem cnt_code (W : List Nat) (hW : lower W) (hlen : W.length = length) (L : Fin letters) :
    cnt W L.val = W.count (L.val + 97) := by
  rw [← cnt_byte W hW hlen (L.val + 97) (letterOf_code L).2, (letterOf_code L).1]

theorem letterAt_eq_iff (T G : List Nat) (hT : lower T) (hTlen : T.length = length)
    (hG : lower G) (hGlen : G.length = length) (j : Fin length) :
    letterAt T j = letterAt G j ↔ G.getD j.val 0 = T.getD j.val 0 := by
  unfold letterAt
  rw [letterOf_inj (lower_getD T hT hTlen j) (lower_getD G hG hGlen j)]
  exact eq_comm

theorem small_and : ∀ n : Fin 6, n.val &&& 0x80 = 0 ∧ (0x80 ||| n.val) &&& 0x80 = 0x80 ∧
    (0x80 ||| n.val) &&& 0x7f = n.val ∧ 0x80 ||| n.val < 256 := by
  decide

/-! ## States reached by a sequence of guesses -/

theorem guesses_eq (T : List Nat) (gs : List (List Nat)) :
    ∀ s : state, onTarget s T → allWords gs →
      guesses s gs = some (recordedAll s T gs) ∧ onTarget (recordedAll s T gs) T := by
  induction gs with
  | nil => intro s hs _; exact ⟨rfl, hs⟩
  | cons g gs ih =>
    intro s hs hw
    have hg := hw g (List.mem_cons_self _ _)
    have hgs : allWords gs := fun w hw2 => hw w (List.mem_cons_of_mem _ hw2)
    obtain ⟨h1, h2⟩ := ih (recorded s T g) (onTarget_recorded s T g hs) hgs
    refine ⟨?_, h2⟩
    unfold guesses
    rw [guess_eq s T g hs hg.1 hg.2]
    exact h1

theorem game_eq (T : List Nat) (hT : lower T) (hlen : T.length = length)
    (gs : List (List Nat)) (hgs : allWords gs) :
    game T gs = some (recordedAll (fresh T) T gs) := by
  unfold game
  rw [newState_eq T hT hlen]
  exact (guesses_eq T gs (fresh T) (onTarget_fresh T hT hlen) hgs).1

theorem recordedAll_append (T : List Nat) (gs hs : List (List Nat)) :
    ∀ s : state, recordedAll s T (gs ++ hs) = recordedAll (recordedAll s T gs) T hs := by
  induction gs with
  | nil => intro s; rfl
  | cons g gs ih => intro s; exact ih (recorded s T g)

theorem sound_fresh (T : List Nat) : sound (fresh T) T := by
  refine ⟨fun j => ⟨?_, Or.inl ?_, ?_⟩, fun L => Or.inl (Nat.zero_le _)⟩
  · show (0 : Nat) < 2 ^ 32
    norm_num
  · show (0 : Nat) >>> 27 = 0
    simp
  · show (0 : Nat).testBit (letterAt T j) = false
    simp

theorem sound_recorded (s : state) (T G : List Nat) (hT : lower T)
    (hTlen : T.length = length) (hG : lower G) (hlen : G.length = length)
    (h : sound s T) : sound (recorded s T G) T := by
  obtain ⟨hc, hn⟩ := h
  refine ⟨fun j => ⟨recorded_lt s T G j (hc j).1, ?_, ?_⟩, fun L => ?_⟩
  · rw [recorded_green s T G hG hlen j]
    by_cases e : letterAt T j = letterAt G j
    · rw [if_pos e]
      rcases (hc j).2.1 with h0 | h1
      · rw [h0, Nat.zero_or]; exact Or.inr rfl
      · rw [h1, Nat.or_self]; exact Or.inr rfl
    · rw [if_neg e]
      exact (hc j).2.1
  · have hk : letterAt T j < 27 := by
      have := letterAt_lt T hT hTlen j
      unfold letters at this
      omega
    rw [recorded_testBit s T G hG hlen j _ hk, (hc j).2.2]
    by_cases e : letterAt T j = letterAt G j
    · simp [e]
    · have e2 : ¬ letterAt G j = letterAt T j := fun h => e h.symm
      simp [e, e2]
  · show (if cnt G L.val = 0 then s.counts L else countFor T G L.val) ≤ cnt T L.val ∨
      (if cnt G L.val = 0 then s.counts L else countFor T G L.val) = 0x80 ||| cnt T L.val
    by_cases h0 : cnt G L.val = 0
    · rw [if_pos h0]; exact hn L
    · rw [if_neg h0]
      unfold countFor
      by_cases h1 : cnt T L.val = 0
      · rw [if_pos h1, h1]; exact Or.inr rfl
      · rw [if_neg h1]
        by_cases h2 : cnt G L.val ≤ cnt T L.val
        · rw [if_pos h2]; exact Or.inl h2
        · rw [if_neg h2]; exact Or.inr rfl

theorem sound_recordedAll (T : List Nat) (hT : lower T) (hTlen : T.length = length)
    (gs : List (List Nat)) :
    ∀ s : state, allWords gs → sound s T → sound (recordedAll s T gs) T := by
  induction gs with
  | nil => intro s _ h; exact h
  | cons g gs ih =>
    intro s hw h
    have hg := hw g (List.mem_cons_self _ _)
    exact ih (recorded s T g) (fun w hw2 => hw w (List.mem_cons_of_mem _ hw2))
      (sound_recorded s T g hT hTlen hg.1 hg.2 h)

/-- A state that holds nothing against the target accepts the target. -/
theorem sound_hardModeOK (s : state) (T : List Nat) (hT : lower T)
    (hTlen : T.length = length) (h : sound s T) : hardModeOK s T = some true := by
  obtain ⟨hc, hn⟩ := h
  rw [(hardModeOK_eq s T hT hTlen).1]
  congr 1
  rw [decide_eq_true_eq]
  constructor
  · intro L
    have hcT := cnt_code T hT hTlen L
    have h5 := cnt_le T L.val
    have hsm := small_and ⟨cnt T L.val, by omega⟩
    simp only at hsm
    have hlt : s.counts L < 256 := by
      rcases hn L with h1 | h1
      · omega
      · rw [h1]; exact hsm.2.2.2
    rw [countProblem_none_iff s T hT hTlen L hlt, ← hcT]
    rcases hn L with h1 | h1
    · have h6 := (small_and ⟨s.counts L, by omega⟩).1
      simp only at h6
      constructor
      · intro he; rw [h6] at he; cases he
      · intro _; exact h1
    · constructor
      · intro _; rw [h1, hsm.2.2.1]
      · intro hne; rw [h1, hsm.2.1] at hne; exact absurd rfl hne
  · intro j
    rw [clueProblem_none_iff s T hT hTlen j (hc j).1]
    constructor
    · intro hne
      rcases (hc j).2.1 with h0 | h1
      · exact absurd h0 hne
      · exact h1.symm
    · exact (hc j).2.2

/-! ## Green facts along a game -/

theorem green_recordedAll (T : List Nat) (hT : lower T) (hTlen : T.length = length)
    (j : Fin length) (gs : List (List Nat)) :
    ∀ s : state, allWords gs → sound s T →
      ((recordedAll s T gs).clues j >>> 27 ≠ 0 ↔
        (s.clues j >>> 27 ≠ 0 ∨ ∃ g ∈ gs, letterAt T j = letterAt g j)) := by
  induction gs with
  | nil => intro s _ _; simp [recordedAll]
  | cons g gs ih =>
    intro s hw h
    have hg := hw g (List.mem_cons_self _ _)
    have hgs : allWords gs := fun w hw2 => hw w (List.mem_cons_of_mem _ hw2)
    have h2 := sound_recorded s T g hT hTlen hg.1 hg.2 h
    show (recordedAll (recorded s T g) T gs).clues j >>> 27 ≠ 0 ↔ _
    rw [ih (recorded s T g) hgs h2, recorded_green s T g hg.1 hg.2 j]
    by_cases e : letterAt T j = letterAt g j
    · rw [if_pos e]
      have hnz : s.clues j >>> 27 ||| (letterAt T j + 1) ≠ 0 := by
        rcases (h.1 j).2.1 with h0 | h1
        · rw [h0, Nat.zero_or]; omega
        · rw [h1, Nat.or_self]; omega
      constructor
      · intro _; exact Or.inr ⟨g, List.mem_cons_self _ _, e⟩
      · intro _; exact Or.inl hnz
    · rw [if_neg e]
      constructor
      · rintro (h3 | ⟨w, hw3, hw4⟩)
        · exact Or.inl h3
        · exact Or.inr ⟨w, List.mem_cons_of_mem _ hw3, hw4⟩
      · rintro (h3 | ⟨w, hw3, hw4⟩)
        · exact Or.inl h3
        · rcases List.mem_cons.1 hw3 with h5 | h5
          · rw [h5] at hw4; exact absurd hw4 e
          · exact Or.inr ⟨w, h5, hw4⟩

/-! ## A wrong-letter bit forbids the word for good -/

theorem testBit_recordedAll (T : List Nat) (j : Fin length) (k : Nat) (hk : k < 27)
    (gs : List (List Nat)) :
    ∀ s : state, allWords gs → (s.clues j).testBit k = true →
      ((recordedAll s T gs).clues j).testBit k = true := by
  induction gs with
  | nil => intro s _ h; exact h
  | cons g gs ih =>
    intro s hw h
    have hg := hw g (List.mem_cons_self _ _)
    apply ih (recorded s T g) (fun w hw2 => hw w (List.mem_cons_of_mem _ hw2))
    rw [recorded_testBit s T g hg.1 hg.2 j k hk, h]
    rfl

theorem clueProblem_of_bit (s : state) (W : List Nat) (hW : lower W)
    (hlen : W.length = length) (j : Fin length)
    (hb : (s.clues j).testBit (letterAt W j) = true) : clueProblem s W j ≠ none := by
  have hL := letterAt_lt W hW hlen j
  have hbit : s.clues j &&& ((1 <<< letterOf (W.getD j.val 0)) % 2 ^ 32) ≠ 0 := by
    have := wrongBits_eq _ hL
    unfold wrongBits letterAt at this
    rw [this]
    exact (and_two_pow_ne_zero _ _).2 hb
  unfold clueProblem
  simp only
  by_cases h1 : s.clues j >>> (32 - length) ≠ 0 ∧
      letterOf (W.getD j.val 0) ≠ (s.clues j >>> (32 - length) + 2 ^ 32 - 1) % 2 ^ 32 % 256
  · rw [if_pos h1]
    simp
  · rw [if_neg h1, if_pos hbit]
    simp

theorem hardModeOK_of_bit (s : state) (W : List Nat) (hW : lower W)
    (hlen : W.length = length) (j : Fin length)
    (hb : (s.clues j).testBit (letterAt W j) = true) : hardModeOK s W = some false := by
  rw [(hardModeOK_eq s W hW hlen).1]
  congr 1
  rw [decide_eq_false_iff_not]
  intro h
  exact clueProblem_of_bit s W hW hlen j hb (h.2 j)

/-- A guess that does not win sets, at some position, the wrong-letter bit of its own
letter. -/
theorem lost_sets_bit (s : state) (T G : List Nat) (hG : lower G) (hlen : G.length = length)
    (hlost : decide (∀ j, scored T G j = clue.green) = false) :
    ∃ j : Fin length, letterAt T j ≠ letterAt G j ∧
      ((recorded s T G).clues j).testBit (letterAt G j) = true := by
  rw [decide_eq_false_iff_not] at hlost
  obtain ⟨j, hj⟩ := not_forall.1 hlost
  have hne : letterAt T j ≠ letterAt G j := by
    intro e
    apply hj
    unfold scored clueFor
    rw [hasAt_target, decide_eq_true e]
    rfl
  have hk : letterAt G j < 27 := by
    have := letterAt_lt G hG hlen j
    unfold letters at this
    omega
  refine ⟨j, hne, ?_⟩
  rw [recorded_testBit s T G hG hlen j _ hk]
  simp [hne]

/-! ## The loop of `playRandomly` -/

theorem keepOK_eq (s : state) (possible : List (List Nat)) (h : allWords possible) :
    keepOK s possible =
      some (possible.filter (fun w => decide (hardModeOK s w = some true))) := by
  induction possible with
  | nil => rfl
  | cons w ws ih =>
    have hw := h w (List.mem_cons_self _ _)
    have hok := (hardModeOK_eq s w hw.1 hw.2).1
    unfold keepOK
    rw [ih (fun x hx => h x (List.mem_cons_of_mem _ hx)), hok]
    simp only [List.filter_cons, hok]
    by_cases hd : (∀ i, countProblem s (indexOf w) i = none) ∧ ∀ j, clueProblem s w j = none
    · simp [hd]
    · simp [hd]

/-- At most 25 different letters differ from a given letter. -/
theorem nodup_letters_le (l : List Nat) (a : Nat) (ha : a < letters) (hnd : l.Nodup)
    (hl : ∀ x ∈ l, x < letters ∧ x ≠ a) : l.length ≤ 25 := by
  have hsub : l.toFinset ⊆ (Finset.range letters).erase a := by
    intro x hx
    have := hl x (List.mem_toFinset.1 hx)
    exact Finset.mem_erase.2 ⟨this.2, Finset.mem_range.2 this.1⟩
  have hcard := Finset.card_le_card hsub
  rw [List.toFinset_card_of_nodup hnd, Finset.card_erase_of_mem (Finset.mem_range.2 ha),
    Finset.card_range] at hcard
  exact hcard

theorem loopInv_bound (T : List Nat) (hT : lower T) (hTlen : T.length = length) (s : state)
    (possible made : List (List Nat)) (h : loopInv T s possible made) :
    made.length ≤ 25 := by
  obtain ⟨_, _, _, hmade, _, _, hH, hN⟩ := h
  rcases hN with h0 | ⟨j, hj⟩
  · rw [h0]; exact Nat.zero_le _
  · obtain ⟨hnd, hall⟩ := hH j hj
    have := nodup_letters_le (made.map (fun g => letterAt g j)) (letterAt T j)
      (letterAt_lt T hT hTlen j) hnd (by
        intro x hx
        obtain ⟨g, hg, rfl⟩ := List.mem_map.1 hx
        exact ⟨letterAt_lt g (hmade g hg).1 (hmade g hg).2 j, (hall g hg).1⟩)
    rwa [List.length_map] at this

theorem loopInv_start (T : List Nat) (hT : lower T) (hTlen : T.length = length)
    (valid : List (List Nat)) (hv : allWords valid) (hmem : T ∈ valid) :
    loopInv T (fresh T) valid [] := by
  refine ⟨onTarget_fresh T hT hTlen, sound_fresh T, hv, fun w hw => absurd hw (List.not_mem_nil w),
    hmem, ?_, ?_, Or.inl rfl⟩
  · intro w _ j
    constructor
    · intro h
      exact absurd (by show (0 : Nat) >>> 27 = 0; simp) h
    · show (0 : Nat).testBit (letterAt w j) = false
      simp
  · intro j _
    exact ⟨List.nodup_nil, fun g hg => absurd hg (List.not_mem_nil g)⟩


theorem green_or_ne_zero (s : state) (T : List Nat) (h : sound s T) (j : Fin length) :
    s.clues j >>> 27 ||| (letterAt T j + 1) ≠ 0 := by
  rcases (h.1 j).2.1 with h0 | h1
  · rw [h0, Nat.zero_or]; omega
  · rw [h1, Nat.or_self]; omega

theorem hardModeOK_true_clues (s : state) (T W : List Nat) (hs : sound s T) (hW : lower W)
    (hlen : W.length = length) (hok : hardModeOK s W = some true) (j : Fin length) :
    (s.clues j >>> 27 ≠ 0 → letterAt W j = letterAt T j) ∧
    (s.clues j).testBit (letterAt W j) = false := by
  rw [(hardModeOK_eq s W hW hlen).1] at hok
  have hd := of_decide_eq_true (Option.some.inj hok)
  have hc := (clueProblem_none_iff s W hW hlen j (hs.1 j).1).1 (hd.2 j)
  refine ⟨fun hne => ?_, hc.2⟩
  have h1 := hc.1 hne
  rcases (hs.1 j).2.1 with h0 | h2
  · exact absurd h0 hne
  · rw [h2] at h1
    unfold letterAt at *
    omega

theorem loopInv_step (T : List Nat) (hT : lower T) (hTlen : T.length = length) (s : state)
    (possible made : List (List Nat)) (word : List Nat) (h : loopInv T s possible made)
    (hw : word ∈ possible) (hlost : decide (∀ j, scored T word j = clue.green) = false) :
    loopInv T (recorded s T word)
      (possible.filter (fun w => decide (hardModeOK (recorded s T word) w = some true)))
      (made ++ [word]) ∧
    (possible.filter
      (fun w => decide (hardModeOK (recorded s T word) w = some true))).length <
        possible.length := by
  obtain ⟨hon, hsound, hposs, hmade, hTin, hP, hH, _⟩ := h
  have hword := hposs word hw
  have hs1 := sound_recorded s T word hT hTlen hword.1 hword.2 hsound
  obtain ⟨j0, hne0, hbit0⟩ := lost_sets_bit s T word hword.1 hword.2 hlost
  have hk : ∀ (g : List Nat), lower g ∧ g.length = length → ∀ j, letterAt g j < 27 := by
    intro g hg j
    have := letterAt_lt g hg.1 hg.2 j
    unfold letters at this
    omega
  refine ⟨⟨onTarget_recorded s T word hon, hs1, ?_, ?_, ?_, ?_, ?_, ?_⟩, ?_⟩
  · exact fun w hw2 => hposs w (List.mem_filter.1 hw2).1
  · intro w hw2
    rcases List.mem_append.1 hw2 with h1 | h1
    · exact hmade w h1
    · rw [List.mem_singleton.1 h1]; exact hword
  · exact List.mem_filter.2 ⟨hTin, decide_eq_true (sound_hardModeOK _ T hT hTlen hs1)⟩
  · intro w hw2 j
    obtain ⟨hw3, hw4⟩ := List.mem_filter.1 hw2
    exact hardModeOK_true_clues _ T w hs1 (hposs w hw3).1 (hposs w hw3).2
      (of_decide_eq_true hw4) j
  · intro j hj
    rw [recorded_green s T word hword.1 hword.2 j] at hj
    by_cases e : letterAt T j = letterAt word j
    · rw [if_pos e] at hj
      exact absurd hj (green_or_ne_zero s T hsound j)
    · rw [if_neg e] at hj
      obtain ⟨hnd, hall⟩ := hH j hj
      constructor
      · rw [List.map_append, List.map_singleton]
        apply List.Nodup.append hnd (List.nodup_singleton _)
        intro x hx1 hx2
        rw [List.mem_singleton.1 hx2] at hx1
        obtain ⟨g, hg, hge⟩ := List.mem_map.1 hx1
        have hb := (hall g hg).2
        rw [hge, (hP word hw j).2] at hb
        cases hb
      · intro g hg
        rcases List.mem_append.1 hg with h1 | h1
        · refine ⟨(hall g h1).1, ?_⟩
          rw [recorded_testBit s T word hword.1 hword.2 j _ (hk g (hmade g h1) j),
            (hall g h1).2]
          rfl
        · rw [List.mem_singleton.1 h1]
          refine ⟨fun h2 => e h2.symm, ?_⟩
          rw [recorded_testBit s T word hword.1 hword.2 j _ (hk word hword j)]
          simp [e]
  · refine Or.inr ⟨j0, ?_⟩
    rw [recorded_green s T word hword.1 hword.2 j0, if_neg hne0]
    by_contra hne
    exact hne0 ((hP word hw j0).1 hne).symm
  · rw [List.length_filter_lt_length_iff_exists]
    refine ⟨word, hw, ?_⟩
    rw [hardModeOK_of_bit _ word hword.1 hword.2 j0 hbit0]
    simp


theorem getD_mem (l : List (List Nat)) (k : Nat) (hl : l.length ≠ 0) :
    l.getD (k % l.length) [] ∈ l := by
  have hlt : k % l.length < l.length := Nat.mod_lt _ (Nat.pos_of_ne_zero hl)
  rw [List.getD_eq_getElem _ _ hlt]
  exact List.getElem_mem _

/-- The loop of `playRandomly`, started where `loopInv` holds with enough fuel, returns. -/
theorem playLoop_spec (rnd : Nat → Nat) (T : List Nat) (hT : lower T)
    (hTlen : T.length = length) :
    ∀ (fuel : Nat) (s : state) (i : Nat) (possible made : List (List Nat)),
      loopInv T s possible made → i = made.length + 1 → possible.length ≤ fuel →
      ∃ i1 trace, playLoop rnd fuel s i possible = (outcome.returned i1, trace) ∧
        i ≤ i1 ∧ i1 < i + possible.length ∧ i1 ≤ 26 ∧ trace.length = i1 - i + 1 ∧
        (∀ p ∈ trace, p ≠ []) ∧ trace.head? = some possible ∧
        trace.Chain' (fun a b => b.length < a.length) := by
  intro fuel
  induction fuel with
  | zero =>
    intro s i possible made h _ hf
    exfalso
    have := List.length_pos_of_mem h.2.2.2.2.1
    omega
  | succ fuel ih =>
    intro s i possible made h hi hf
    have hpos := List.length_pos_of_mem h.2.2.2.2.1
    have hne : possible.length ≠ 0 := by omega
    have hpne : possible ≠ [] := fun e => hne (by rw [e]; rfl)
    have hw := getD_mem possible (rnd i) hne
    have hword := h.2.2.1 _ hw
    have hbound := loopInv_bound T hT hTlen s possible made h
    have hg := guess_eq s T _ h.1 hword.1 hword.2
    unfold playLoop
    simp only [hne, if_false, hg]
    by_cases hwon : decide (∀ j, scored T (possible.getD (rnd i % possible.length) []) j =
        clue.green) = true
    · simp only [hwon, if_true]
      refine ⟨i, [possible], rfl, le_refl _, by omega, by omega, by simp, ?_, rfl, ?_⟩
      · intro p hp
        rw [List.mem_singleton.1 hp]
        exact hpne
      · exact List.chain'_singleton _
    · have hlost := Bool.eq_false_iff.2 hwon
      obtain ⟨hinv, hlen⟩ := loopInv_step T hT hTlen s possible made _ h hw hlost
      obtain ⟨i1, trace, h1, h2, h3, h4, h5, h6, h7, h8⟩ := ih _ (i + 1) _ _ hinv
        (by rw [List.length_append, hi]; rfl) (by omega)
      simp only [hlost, Bool.false_eq_true, if_false, keepOK_eq _ possible h.2.2.1, h1]
      refine ⟨i1, possible :: trace, rfl, by omega, by omega, h4, ?_, ?_, rfl, ?_⟩
      · rw [List.length_cons, h5]; omega
      · intro p hp
        rcases List.mem_cons.1 hp with e | e
        · rw [e]; exact hpne
        · exact h6 p e
      · rw [List.chain'_cons']
        refine ⟨?_, h8⟩
        intro y hy
        rw [h7] at hy
        rw [← Option.some.inj hy]
        exact hlen

/-! ## The claims -/

/-- C1. On a game on a target `T` of five lowercase letters, with any accumulators, a
guess `G` of five lowercase letters returns; `won` is true iff all five returned clues
are green, and all five are green iff `G = T`. -/
theorem C1_won_iff_all_green_iff_eq (s : state) (T G : List Nat) (hs : onTarget s T)
    (hG : lower G) (hlen : G.length = length) :
    ∃ s1 result won, guess s G = (s1, some (result, won)) ∧
      (won = true ↔ ∀ j, result j = clue.green) ∧
      ((∀ j, result j = clue.green) ↔ G = T) := by
  refine ⟨_, _, _, guess_eq s T G hs hG hlen, by simp, ?_⟩
  rw [← eq_of_getD T G hs.2.1 hlen]
  exact forall_congr' (fun j => scored_green_iff T G hs.2.2.1 hs.2.1 hG hlen j)

/-- C1 at target "crane" and guess "trace". -/
theorem C1_witness :
    ∃ s1 result won,
      guess (fresh (bytes "crane")) (bytes "trace") =
        (s1, some (result, won)) ∧
      (won = true ↔ ∀ j, result j = clue.green) ∧
      ((∀ j, result j = clue.green) ↔ bytes "trace" = bytes "crane") :=
  C1_won_iff_all_green_iff_eq _ (bytes "crane") (bytes "trace")
    (onTarget_fresh _ (by decide) (by decide)) (by decide) (by decide)

/-- C2. For every position `j`, the clue returned at `j` is green iff `G[j] = T[j]`, and
it is gray when the letter `G[j]` does not occur in `T`. -/
theorem C2_green_iff_match_and_gray_if_absent (s : state) (T G : List Nat)
    (hs : onTarget s T) (hG : lower G) (hlen : G.length = length) :
    ∃ s1 result won, guess s G = (s1, some (result, won)) ∧
      ∀ j : Fin length,
        (result j = clue.green ↔ G.getD j.val 0 = T.getD j.val 0) ∧
        (G.getD j.val 0 ∉ T → result j = clue.gray) := by
  refine ⟨_, _, _, guess_eq s T G hs hG hlen, fun j => ⟨?_, ?_⟩⟩
  · exact scored_green_iff T G hs.2.2.1 hs.2.1 hG hlen j
  · intro hnot
    have hc := lower_getD G hG hlen j
    have hz : cnt T (letterAt G j) = 0 := by
      unfold cnt letterAt
      rw [List.countP_eq_zero]
      intro q _
      rw [hasAt_byte T hs.2.2.1 hs.2.1 _ hc q]
      simp only [decide_eq_true_eq]
      intro h
      apply hnot
      rw [← h]
      have hq : q.val < T.length := by rw [hs.2.1]; exact q.isLt
      rw [List.getD_eq_getElem _ _ hq]
      exact List.getElem_mem _
    have ht : hasAt T (letterAt G j) j.val = false :=
      countP_eq_zero_apply (fun q => hasAt T (letterAt G j) q.val) j hz
    unfold scored clueFor
    simp [ht, hz]

/-- C2 at target "crane" and guess "trace". -/
theorem C2_witness :
    ∃ s1 result won,
      guess (fresh (bytes "crane")) (bytes "trace") =
        (s1, some (result, won)) ∧
      ∀ j : Fin length,
        (result j = clue.green ↔
          (bytes "trace").getD j.val 0 = (bytes "crane").getD j.val 0) ∧
        ((bytes "trace").getD j.val 0 ∉ bytes "crane" → result j = clue.gray) :=
  C2_green_iff_match_and_gray_if_absent _ (bytes "crane") (bytes "trace")
    (onTarget_fresh _ (by decide) (by decide)) (by decide) (by decide)

/-- C3, as stated, fails at its second example: target "allow", guess "llama". The second
`l` of the guess is at position 1, where the target has an `l` too, so it is green; the
returned clues are yellow, green, yellow, gray, gray and not yellow, yellow, yellow, gray,
gray. -/
theorem C3_counterexample :
    play (bytes "allow") (bytes "llama") =
      some ([clue.yellow, clue.green, clue.yellow, clue.gray, clue.gray], false) ∧
    (play (bytes "allow") (bytes "llama")).map Prod.fst ≠
      some [clue.yellow, clue.yellow, clue.yellow, clue.gray, clue.gray] := by
  decide

/-- C3, amended. Duplicate-letter rule of `guess`: the clue at a position `j` where guess
and target differ is yellow when fewer than (count of `G[j]` in `T`) - (positions where both
have `G[j]`) earlier positions hold `G[j]` in the guess and not in the target, and gray
otherwise (ascending position order); a position where they agree is green. Hence for every
letter of the guess the green and yellow clues number min(count in `G`, count in `T`), and no
clue is `unknown`. Target "speed", guess "erase" gives yellow at positions 0 and 4; target
"allow", guess "llama" gives yellow, green, yellow, gray, gray. -/
theorem C3_duplicate_letter_rule (s : state) (T G : List Nat) (hs : onTarget s T)
    (hG : lower G) (hlen : G.length = length) :
    ∃ s1 result won, guess s G = (s1, some (result, won)) ∧
      (∀ j : Fin length, result j =
        if G.getD j.val 0 = T.getD j.val 0 then clue.green
        else if unmatchedBefore T G j <
            T.count (G.getD j.val 0) - matched T G (G.getD j.val 0) then clue.yellow
        else clue.gray) ∧
      (∀ c ∈ G, (List.finRange length).countP (fun j => decide (G.getD j.val 0 = c ∧
          (result j = clue.green ∨ result j = clue.yellow))) = min (G.count c) (T.count c)) ∧
      (∀ j, result j ≠ clue.unknown) ∧
      play (bytes "speed") (bytes "erase") =
        some ([clue.yellow, clue.gray, clue.gray, clue.yellow, clue.yellow], false) ∧
      play (bytes "allow") (bytes "llama") =
        some ([clue.yellow, clue.green, clue.yellow, clue.gray, clue.gray], false) := by
  have hb := scored_byte T G hs.2.2.1 hs.2.1 hG hlen
  refine ⟨_, _, _, guess_eq s T G hs hG hlen, hb, ?_, ?_, by decide, by decide⟩
  · intro c hc
    exact scored_count T G hs.2.2.1 hs.2.1 hG hlen c (hG c hc)
  · intro j
    rw [hb j]
    split
    · simp
    · split <;> simp

/-- C3 (amended) at target "speed" and guess "erase". -/
theorem C3_witness :
    onTarget (fresh (bytes "speed")) (bytes "speed") ∧ lower (bytes "erase") ∧
    ∃ s1 result won, guess (fresh (bytes "speed")) (bytes "erase") = (s1, some (result, won)) ∧
      (∀ j : Fin length, result j =
        if (bytes "erase").getD j.val 0 = (bytes "speed").getD j.val 0 then clue.green
        else if unmatchedBefore (bytes "speed") (bytes "erase") j <
            (bytes "speed").count ((bytes "erase").getD j.val 0) -
              matched (bytes "speed") (bytes "erase") ((bytes "erase").getD j.val 0)
          then clue.yellow
        else clue.gray) ∧
      (∀ c ∈ bytes "erase", (List.finRange length).countP
          (fun j => decide ((bytes "erase").getD j.val 0 = c ∧
            (result j = clue.green ∨ result j = clue.yellow))) =
          min ((bytes "erase").count c) ((bytes "speed").count c)) ∧
      (∀ j, result j ≠ clue.unknown) ∧
      play (bytes "speed") (bytes "erase") =
        some ([clue.yellow, clue.gray, clue.gray, clue.yellow, clue.yellow], false) ∧
      play (bytes "allow") (bytes "llama") =
        some ([clue.yellow, clue.green, clue.yellow, clue.gray, clue.gray], false) :=
  ⟨onTarget_fresh _ (by decide) (by decide), by decide,
    C3_duplicate_letter_rule _ (bytes "speed") (bytes "erase")
      (onTarget_fresh _ (by decide) (by decide)) (by decide) (by decide)⟩

/-- C4. For every state (its `counts` being `uint8` and its `clues` `uint32` values) and
every word `W` of five lowercase letters, `hardModeOK` returns, `hardModeProblem` is `nil`
exactly when `hardModeOK` is true, and `hardModeOK` is true iff all of these hold: every
letter whose entry has the exact bit occurs in `W` exactly `counts[L] & 0x7f` times; every
letter without the exact bit occurs at least `counts[L]` times; at every position with a
green fact `W` has that letter; and at no position is the letter of `W` in the wrong-letter
set. -/
theorem C4_hardModeOK_iff_all_constraints (s : state) (W : List Nat) (hW : lower W)
    (hlen : W.length = length) (hcounts : ∀ L, s.counts L < 256)
    (hclues : ∀ j, s.clues j < 2 ^ 32) :
    ∃ ok, hardModeOK s W = some ok ∧
      (hardModeProblem s W = some none ↔ ok = true) ∧
      (ok = true ↔
        (∀ L : Fin letters, s.counts L &&& 0x80 = 0x80 →
          W.count (L.val + 97) = s.counts L &&& 0x7f) ∧
        (∀ L : Fin letters, s.counts L &&& 0x80 ≠ 0x80 →
          s.counts L ≤ W.count (L.val + 97)) ∧
        (∀ j : Fin length, s.clues j >>> 27 ≠ 0 →
          letterOf (W.getD j.val 0) + 1 = s.clues j >>> 27) ∧
        (∀ j : Fin length, (s.clues j).testBit (letterOf (W.getD j.val 0)) = false)) := by
  obtain ⟨h1, h2⟩ := hardModeOK_eq s W hW hlen
  refine ⟨_, h1, ?_, ?_⟩
  · rw [h2, h1]
    exact ⟨fun h => Option.some.inj h, fun h => congrArg some h⟩
  · rw [decide_eq_true_eq]
    constructor
    · rintro ⟨hc, hq⟩
      refine ⟨fun L => ?_, fun L => ?_, fun j => ?_, fun j => ?_⟩
      · exact ((countProblem_none_iff s W hW hlen L (hcounts L)).1 (hc L)).1
      · exact ((countProblem_none_iff s W hW hlen L (hcounts L)).1 (hc L)).2
      · exact ((clueProblem_none_iff s W hW hlen j (hclues j)).1 (hq j)).1
      · exact ((clueProblem_none_iff s W hW hlen j (hclues j)).1 (hq j)).2
    · rintro ⟨ha, hb, hc, hd⟩
      exact ⟨fun L => (countProblem_none_iff s W hW hlen L (hcounts L)).2 ⟨ha L, hb L⟩,
        fun j => (clueProblem_none_iff s W hW hlen j (hclues j)).2 ⟨hc j, hd j⟩⟩

/-- C4 at the state after the guess "elite" on the target "horse" and the word "nurse". -/
theorem C4_witness :
    lower (bytes "nurse") ∧
    (∀ L, afterElite.counts L < 256) ∧
    (∀ j, afterElite.clues j < 2 ^ 32) ∧
    ∃ ok, hardModeOK afterElite (bytes "nurse") = some ok ∧
      (hardModeProblem afterElite (bytes "nurse") = some none ↔ ok = true) ∧
      (ok = true ↔
        (∀ L : Fin letters, afterElite.counts L &&& 0x80 = 0x80 →
          (bytes "nurse").count (L.val + 97) = afterElite.counts L &&& 0x7f) ∧
        (∀ L : Fin letters, afterElite.counts L &&& 0x80 ≠ 0x80 →
          afterElite.counts L ≤ (bytes "nurse").count (L.val + 97)) ∧
        (∀ j : Fin length, afterElite.clues j >>> 27 ≠ 0 →
          letterOf ((bytes "nurse").getD j.val 0) + 1 = afterElite.clues j >>> 27) ∧
        (∀ j : Fin length,
          (afterElite.clues j).testBit (letterOf ((bytes "nurse").getD j.val 0)) = false)) :=
  ⟨by decide, by decide, by decide,
    C4_hardModeOK_iff_all_constraints _ (bytes "nurse") (by decide) (by decide)
      (by decide) (by decide)⟩

/-- C5, the code at the failing input. Target "horse" (one `e`). The guess "elite" has two
`e` and makes `counts['e']` exact 1 (0x81), so "verse" (two `e`) is rejected. The next guess
"nurse" passes `hardModeOK`, has exactly one `e`, and the assignment
`s.counts[i] = charIndex.count()` overwrites the entry with 1, exact bit clear; "verse" is
accepted from then on, although hard mode knows that the target has exactly one `e`. -/
theorem C5_exact_bit_cleared :
    (game (bytes "horse") [bytes "elite"]).map (fun s => s.counts 4) = some 0x81 ∧
    (game (bytes "horse") [bytes "elite"]).bind (fun s => hardModeOK s (bytes "verse")) =
      some false ∧
    (game (bytes "horse") [bytes "elite"]).bind (fun s => hardModeOK s (bytes "nurse")) =
      some true ∧
    (game (bytes "horse") [bytes "elite", bytes "nurse"]).map (fun s => s.counts 4) =
      some 1 ∧
    (game (bytes "horse") [bytes "elite", bytes "nurse"]).bind
      (fun s => hardModeOK s (bytes "verse")) = some true ∧
    (bytes "verse").count 101 = 2 ∧ (bytes "horse").count 101 = 1 := by
  decide

/-- C6. Re-scoring is idempotent: a second call of `guess` with the same word, right after
the first, returns the same clues and the same `won` and leaves the state exactly as the
first call left it, so no green fact and no count fact changes. -/
theorem C6_guess_idempotent (s : state) (T G : List Nat) (hs : onTarget s T)
    (hG : lower G) (hlen : G.length = length) :
    ∃ s1 result won, guess s G = (s1, some (result, won)) ∧
      guess s1 G = (s1, some (result, won)) := by
  refine ⟨_, _, _, guess_eq s T G hs hG hlen, ?_⟩
  rw [guess_eq (recorded s T G) T G (onTarget_recorded s T G hs) hG hlen, recorded_idem]

/-- C6 at target "horse" and guess "elite". -/
theorem C6_witness :
    onTarget (fresh (bytes "horse")) (bytes "horse") ∧ lower (bytes "elite") ∧
    ∃ s1 result won, guess (fresh (bytes "horse")) (bytes "elite") = (s1, some (result, won)) ∧
      guess s1 (bytes "elite") = (s1, some (result, won)) :=
  ⟨onTarget_fresh _ (by decide) (by decide), by decide,
    C6_guess_idempotent _ (bytes "horse") (bytes "elite")
      (onTarget_fresh _ (by decide) (by decide)) (by decide) (by decide)⟩

/-- C7. Scoring is a function of target and guess only: two states of games on the same
target, whatever their accumulators, return the same clues and the same `won` for the same
guess. For target "crane" and guess "trace" the clues are gray, green, green, yellow,
green. -/
theorem C7_clues_independent_of_accumulators (s1 s2 : state) (T G : List Nat)
    (h1 : onTarget s1 T) (h2 : onTarget s2 T) (hG : lower G) (hlen : G.length = length) :
    ∃ t1 t2 result won, guess s1 G = (t1, some (result, won)) ∧
      guess s2 G = (t2, some (result, won)) ∧
      (T = bytes "crane" → G = bytes "trace" →
        List.ofFn result =
          [clue.gray, clue.green, clue.green, clue.yellow, clue.green] ∧ won = false) := by
  refine ⟨_, _, _, _, guess_eq s1 T G h1 hG hlen, guess_eq s2 T G h2 hG hlen, ?_⟩
  intro hT hg
  subst hT hg
  decide

/-- C7 at target "crane" and guess "trace", for a fresh state and the state after the guess
"eerie". -/
theorem C7_witness :
    onTarget (fresh (bytes "crane")) (bytes "crane") ∧
    onTarget (recorded (fresh (bytes "crane")) (bytes "crane") (bytes "eerie"))
      (bytes "crane") ∧
    ∃ t1 t2 result won, guess (fresh (bytes "crane")) (bytes "trace") =
        (t1, some (result, won)) ∧
      guess (recorded (fresh (bytes "crane")) (bytes "crane") (bytes "eerie"))
        (bytes "trace") = (t2, some (result, won)) ∧
      (bytes "crane" = bytes "crane" → bytes "trace" = bytes "trace" →
        List.ofFn result =
          [clue.gray, clue.green, clue.green, clue.yellow, clue.green] ∧ won = false) :=
  ⟨onTarget_fresh _ (by decide) (by decide),
    onTarget_recorded _ _ _ (onTarget_fresh _ (by decide) (by decide)),
    C7_clues_independent_of_accumulators _ _ (bytes "crane") (bytes "trace")
      (onTarget_fresh _ (by decide) (by decide))
      (onTarget_recorded _ _ _ (onTarget_fresh _ (by decide) (by decide)))
      (by decide) (by decide)⟩

/-- C8. For a word `W` of five lowercase letters `newIndex` returns an index in which, for
every letter `L` and position `i`, `at(i)` of entry `L` holds iff `W[i]` is `L`; `count()` of
entry `L` is the number of set position bits of the entry; and the 26 counts sum to 5. -/
theorem C8_newIndex_mask_and_count (W : List Nat) (hW : lower W) (hlen : W.length = length) :
    ∃ idx, newIndex W = some idx ∧
      (∀ (L : Fin letters) (i : Fin length),
        (idx L).atPos i.val = true ↔ W.getD i.val 0 = L.val + 97) ∧
      (∀ L : Fin letters, (idx L).count =
        (List.finRange length).countP (fun i => (idx L).atPos i.val)) ∧
      ((List.finRange letters).map (fun L => (idx L).count)).sum = 5 := by
  refine ⟨indexOf W, newIndex_eq W hW hlen, ?_, ?_, ?_⟩
  · intro L i
    rw [indexOf_atPos, ← (letterOf_code L).1, hasAt_byte W hW hlen _ (letterOf_code L).2 i,
      decide_eq_true_eq, (letterOf_code L).1]
  · intro L
    rw [indexOf_count]
    congr 1
    funext i
    exact (indexOf_atPos W L i).symm
  · rw [← Fin.sum_univ_def]
    simp only [indexOf_count_eq]
    exact cnt_sum W hW hlen

/-- C8 at the word "speed". -/
theorem C8_witness :
    lower (bytes "speed") ∧ (bytes "speed").length = length ∧
    ∃ idx, newIndex (bytes "speed") = some idx ∧
      (∀ (L : Fin letters) (i : Fin length),
        (idx L).atPos i.val = true ↔ (bytes "speed").getD i.val 0 = L.val + 97) ∧
      (∀ L : Fin letters, (idx L).count =
        (List.finRange length).countP (fun i => (idx L).atPos i.val)) ∧
      ((List.finRange letters).map (fun L => (idx L).count)).sum = 5 :=
  ⟨by decide, by decide, C8_newIndex_mask_and_count (bytes "speed") (by decide) (by decide)⟩

/-- C9. For every string `W` of lowercase letters and every state, each of `newState`,
`guess` and `hardModeInfo` panics iff the length of `W` is not 5; a `guess` that panics
leaves the state, so `clues` and `counts`, as it was; and a call that returns was given
exactly five bytes, so no result comes from a truncated or padded word. -/
theorem C9_wrong_length_panics (s : state) (W : List Nat) (hW : lower W) :
    (newState W = none ↔ W.length ≠ length) ∧
    ((guess s W).2 = none ↔ W.length ≠ length) ∧
    (hardModeInfo s W = none ↔ W.length ≠ length) ∧
    ((guess s W).2 = none → (guess s W).1 = s) := by
  by_cases hlen : W.length = length
  · have h1 := newState_eq W hW hlen
    have h2 : (guess s W).2 ≠ none := by
      unfold guess
      rw [if_neg (by simp [hlen]), newIndex_eq W hW hlen]
      simp
    have h3 : hardModeInfo s W ≠ none := by
      rw [hardModeInfo_eq s W hW hlen]
      cases (List.finRange letters).findSome? (countProblem s (indexOf W)) with
      | some r => simp
      | none =>
        cases (List.finRange length).findSome? (clueProblem s W) with
        | some r => simp
        | none => simp
    simp [h1, h2, h3, hlen]
  · have h1 : newState W = none := by unfold newState; rw [if_pos hlen]
    have h2 : guess s W = (s, none) := by unfold guess; rw [if_pos hlen]
    have h3 : hardModeInfo s W = none := by unfold hardModeInfo; rw [if_pos hlen]
    simp [h1, h2, h3, hlen]

/-- C9 at the four-letter word "tree" on a game on "crane". -/
theorem C9_witness :
    lower (bytes "tree") ∧
    (newState (bytes "tree") = none ↔ (bytes "tree").length ≠ length) ∧
    ((guess (fresh (bytes "crane")) (bytes "tree")).2 = none ↔
      (bytes "tree").length ≠ length) ∧
    (hardModeInfo (fresh (bytes "crane")) (bytes "tree") = none ↔
      (bytes "tree").length ≠ length) ∧
    ((guess (fresh (bytes "crane")) (bytes "tree")).2 = none →
      (guess (fresh (bytes "crane")) (bytes "tree")).1 = fresh (bytes "crane")) :=
  ⟨by decide, C9_wrong_length_panics (fresh (bytes "crane")) (bytes "tree") (by decide)⟩

/-- C10. For the metric "worst" and every non-empty map of targets to histograms of
non-negative counters, not all zero, `run` returns the largest index of a nonzero counter
of any histogram, together with exactly the targets whose own largest nonzero index is that
value, each once and in ascending lexicographic order; and the returned value does not
depend on the order in which the map is iterated. -/
theorem C10_worst_metric_run (results : List (List Nat × histogram)) (hne : results ≠ [])
    (hkeys : (results.map Prod.fst).Nodup)
    (hhist : ∀ e ∈ results, (∀ i, 0 ≤ e.2 i) ∧ ∃ i, e.2 i ≠ 0) :
    (∃ (worst : Int) (words : List (List Nat)),
      worstMetric.run results = some ("worst", worst, words) ∧
      (∃ e ∈ results, ∃ i : Fin m, e.2 i ≠ 0 ∧ (i.val : Int) = worst) ∧
      (∀ e ∈ results, ∀ i : Fin m, e.2 i ≠ 0 → (i.val : Int) ≤ worst) ∧
      (∀ w, w ∈ words ↔
        ∃ r, (w, r) ∈ results ∧ ∃ k : Fin m, largestNonzero r k ∧ (k.val : Int) = worst) ∧
      words.Sorted (· ≤ ·) ∧ words.Nodup) ∧
    ∀ results1 : List (List Nat × histogram), results1.Perm results →
      worstMetric.run results1 = worstMetric.run results := by
  obtain ⟨worst, words, h1, h2, h3, h4, h5, h6⟩ := worst_run_spec results hne hkeys hhist
  refine ⟨⟨worst, words, h1, ?_, h3, h4, h5, h6⟩, ?_⟩
  · obtain ⟨e, he, k, hk, hkw⟩ := h2
    exact ⟨e, he, k, hk.1, hkw⟩
  · intro results1 hp
    have hne1 : results1 ≠ [] := fun h => hne (by rw [h] at hp; exact hp.symm.eq_nil)
    have hkeys1 : (results1.map Prod.fst).Nodup := ((hp.map Prod.fst).nodup_iff).2 hkeys
    have hhist1 : ∀ e ∈ results1, (∀ i, 0 ≤ e.2 i) ∧ ∃ i, e.2 i ≠ 0 :=
      fun e he => hhist e (hp.mem_iff.1 he)
    obtain ⟨worst1, words1, g1, g2, g3, g4, g5, g6⟩ :=
      worst_run_spec results1 hne1 hkeys1 hhist1
    have hw : worst1 = worst := by
      apply le_antisymm
      · obtain ⟨e, he, k, hk, hkw⟩ := g2
        rw [← hkw]
        exact h3 e (hp.mem_iff.1 he) k hk.1
      · obtain ⟨e, he, k, hk, hkw⟩ := h2
        rw [← hkw]
        exact g3 e (hp.mem_iff.2 he) k hk.1
    subst hw
    have hmem : ∀ w, w ∈ words1 ↔ w ∈ words := by
      intro w
      rw [g4 w, h4 w]
      constructor
      · rintro ⟨r, hr, hk⟩
        exact ⟨r, hp.mem_iff.1 hr, hk⟩
      · rintro ⟨r, hr, hk⟩
        exact ⟨r, hp.mem_iff.2 hr, hk⟩
    have hperm : words1.Perm words := (List.perm_ext_iff_of_nodup g6 h6).2 hmem
    have heq : words1 = words := List.eq_of_perm_of_sorted hperm g5 h5
    rw [g1, h1, heq]

/-- C10 at a map with the targets "nurse" and "horse". -/
theorem C10_witness :
    (sampleResults.map Prod.fst).Nodup ∧
    (∀ e ∈ sampleResults, (∀ i, 0 ≤ e.2 i) ∧ ∃ i, e.2 i ≠ 0) ∧
    (∃ (worst : Int) (words : List (List Nat)),
      worstMetric.run sampleResults = some ("worst", worst, words) ∧
      (∃ e ∈ sampleResults, ∃ i : Fin m, e.2 i ≠ 0 ∧ (i.val : Int) = worst) ∧
      (∀ e ∈ sampleResults, ∀ i : Fin m, e.2 i ≠ 0 → (i.val : Int) ≤ worst) ∧
      (∀ w, w ∈ words ↔ ∃ r, (w, r) ∈ sampleResults ∧
        ∃ k : Fin m, largestNonzero r k ∧ (k.val : Int) = worst) ∧
      words.Sorted (· ≤ ·) ∧ words.Nodup) ∧
    ∀ results1 : List (List Nat × histogram), results1.Perm sampleResults →
      worstMetric.run results1 = worstMetric.run sampleResults :=
  ⟨by decide, by decide,
    C10_worst_metric_run sampleResults (List.cons_ne_nil _ _) (by decide) (by decide)⟩

/-- C11, as stated, fails on the map with "nurse" (three games of 4 guesses) and "horse"
(one game of 5 guesses): the smallest guess count with a nonzero counter is 4, reached by
"nurse", but `run` returns 5 with "horse", the largest of the two per-target best counts. -/
theorem C11_counterexample :
    bestMetric.run sampleResults = some ("best", 5, [bytes "horse"]) ∧
    (∃ e ∈ sampleResults, e.1 = bytes "nurse" ∧ e.2 4 ≠ 0) := by
  decide

/-- C11, amended. For the metric "best" and every non-empty map of targets to histograms of
non-negative counters, not all zero, `run` returns the largest, over the targets, of the
target's own best (smallest) guess count with a nonzero counter, together with exactly the
targets whose own best guess count is that value, each once and in ascending lexicographic
order. -/
theorem C11_best_metric_run (results : List (List Nat × histogram)) (hne : results ≠ [])
    (hkeys : (results.map Prod.fst).Nodup)
    (hhist : ∀ e ∈ results, (∀ i, 0 ≤ e.2 i) ∧ ∃ i, e.2 i ≠ 0) :
    ∃ (worst : Int) (words : List (List Nat)),
      bestMetric.run results = some ("best", worst, words) ∧
      (∃ e ∈ results, ∃ k : Fin m, smallestNonzero e.2 k ∧ (k.val : Int) = worst) ∧
      (∀ e ∈ results, ∀ k : Fin m, smallestNonzero e.2 k → (k.val : Int) ≤ worst) ∧
      (∀ w, w ∈ words ↔
        ∃ r, (w, r) ∈ results ∧ ∃ k : Fin m, smallestNonzero r k ∧ (k.val : Int) = worst) ∧
      words.Sorted (· ≤ ·) ∧ words.Nodup :=
  run_spec_index bestMetric smallestNonzero smallestNonzero_unique results hne hkeys
    (fun e he => bestBadness_spec e.2 (hhist e he).1 (hhist e he).2)

/-- C11 (amended) at the map with the targets "nurse" and "horse". -/
theorem C11_witness :
    (sampleResults.map Prod.fst).Nodup ∧
    (∀ e ∈ sampleResults, (∀ i, 0 ≤ e.2 i) ∧ ∃ i, e.2 i ≠ 0) ∧
    ∃ (worst : Int) (words : List (List Nat)),
      bestMetric.run sampleResults = some ("best", worst, words) ∧
      (∃ e ∈ sampleResults, ∃ k : Fin m, smallestNonzero e.2 k ∧ (k.val : Int) = worst) ∧
      (∀ e ∈ sampleResults, ∀ k : Fin m, smallestNonzero e.2 k → (k.val : Int) ≤ worst) ∧
      (∀ w, w ∈ words ↔ ∃ r, (w, r) ∈ sampleResults ∧
        ∃ k : Fin m, smallestNonzero r k ∧ (k.val : Int) = worst) ∧
      words.Sorted (· ≤ ·) ∧ words.Nodup :=
  ⟨by decide, by decide,
    C11_best_metric_run sampleResults (List.cons_ne_nil _ _) (by decide) (by decide)⟩

/-- C12. For every histogram of non-negative counters with at least one recorded trial,
whose sums fit a Go `int`, with `float64` taken as exact rationals: the "average" reducer
returns (sum of `i * r[i]`) / (sum of `r[i]`) and the "not-in-6" reducer returns
100 * (sum of `r[i]` for `i > 6`) / (sum of `r[i]`), the divisor being nonzero; both only
read `r`. With `r[4] = 3`, `r[5] = 2` and zero elsewhere the average is 22/5 and not-in-6
is 0. -/
theorem C12_average_and_not_in_6 (r : histogram) (hpos : ∀ i, 0 ≤ r i)
    (htrial : ∃ i, r i ≠ 0)
    (h1 : ∑ i : Fin m, (i.val : Int) * r i < 9223372036854775808)
    (h2 : ∑ i : Fin m, r i < 9223372036854775808) :
    averageBadness r =
      some ((∑ i : Fin m, (i.val : ℚ) * (r i : ℚ)) / (∑ i : Fin m, (r i : ℚ))) ∧
    notIn6Badness r =
      some (100 * (∑ i : Fin m, if 6 < i.val then (r i : ℚ) else 0) /
        (∑ i : Fin m, (r i : ℚ))) ∧
    (∑ i : Fin m, (r i : ℚ)) ≠ 0 ∧
    averageBadness sampleHist = some (22 / 5) ∧ notIn6Badness sampleHist = some 0 := by
  refine ⟨?_, ?_, ?_, ?_, ?_⟩
  · rw [averageBadness_eq r hpos h1 h2]
    push_cast
    rfl
  · rw [notIn6Badness_eq r hpos h2]
    push_cast
    rfl
  · obtain ⟨k, hk⟩ := htrial
    have hpos2 : 0 < ∑ i : Fin m, r i := by
      apply Finset.sum_pos'
      · intro i _; exact hpos i
      · exact ⟨k, Finset.mem_univ k, lt_of_le_of_ne (hpos k) (Ne.symm hk)⟩
    have : ((∑ i : Fin m, r i : Int) : ℚ) ≠ 0 := by
      exact_mod_cast ne_of_gt hpos2
    push_cast at this
    exact this
  · unfold averageBadness
    rw [averageSums_sample]
    norm_num
  · unfold notIn6Badness
    rw [notIn6Counts_sample]
    norm_num

set_option maxRecDepth 1000000 in
/-- C12 at the histogram with three games of 4 guesses and two of 5. -/
theorem C12_witness :
    (∀ i, 0 ≤ sampleHist i) ∧ (∃ i, sampleHist i ≠ 0) ∧
    averageBadness sampleHist =
      some ((∑ i : Fin m, (i.val : ℚ) * (sampleHist i : ℚ)) /
        (∑ i : Fin m, (sampleHist i : ℚ))) ∧
    notIn6Badness sampleHist =
      some (100 * (∑ i : Fin m, if 6 < i.val then (sampleHist i : ℚ) else 0) /
        (∑ i : Fin m, (sampleHist i : ℚ))) ∧
    (∑ i : Fin m, (sampleHist i : ℚ)) ≠ 0 ∧
    averageBadness sampleHist = some (22 / 5) ∧ notIn6Badness sampleHist = some 0 :=
  ⟨by decide, by decide,
    C12_average_and_not_in_6 sampleHist (by decide) (by decide) (by decide) (by decide)⟩

/-- C15. Count-constraint recording: after `guess(G)`, for every letter `L` of `G`,
`counts[L]` is 0x80 if `L` does not occur in `T`; the number `n` of copies in `G`, exact
bit clear, if `n` is at most the number of `L` in `T`; and 0x80 | `c` if `G` has more copies
than the `c` copies of `T`. For a letter that does not occur in `G` the entry is unchanged,
and `target` and `targetIndex` are unchanged. -/
theorem C15_counts_recorded (s : state) (T G : List Nat) (hs : onTarget s T)
    (hG : lower G) (hlen : G.length = length) :
    ∃ s1 result won, guess s G = (s1, some (result, won)) ∧
      (∀ L : Fin letters,
        (L.val + 97 ∈ G → L.val + 97 ∉ T → s1.counts L = 0x80) ∧
        (L.val + 97 ∈ G → G.count (L.val + 97) ≤ T.count (L.val + 97) →
          s1.counts L = G.count (L.val + 97) ∧ s1.counts L &&& 0x80 = 0) ∧
        (L.val + 97 ∈ G → T.count (L.val + 97) < G.count (L.val + 97) →
          s1.counts L = 0x80 ||| T.count (L.val + 97)) ∧
        (L.val + 97 ∉ G → s1.counts L = s.counts L)) ∧
      s1.target = s.target ∧ s1.targetIndex = s.targetIndex := by
  refine ⟨_, _, _, guess_eq s T G hs hG hlen, ?_, rfl, rfl⟩
  intro L
  have hcG := cnt_code G hG hlen L
  have hcT := cnt_code T hs.2.2.1 hs.2.1 L
  have hle : G.count (L.val + 97) ≤ 5 := by rw [← hcG]; exact cnt_le G L.val
  have hval : (recorded s T G).counts L =
      if G.count (L.val + 97) = 0 then s.counts L
      else if T.count (L.val + 97) = 0 then 0x80
      else if G.count (L.val + 97) ≤ T.count (L.val + 97) then G.count (L.val + 97)
      else 0x80 ||| T.count (L.val + 97) := by
    show (if cnt G L.val = 0 then s.counts L else countFor T G L.val) = _
    unfold countFor
    rw [hcG, hcT]
  rw [hval]
  refine ⟨?_, ?_, ?_, ?_⟩
  · intro hin hnot
    have h1 : G.count (L.val + 97) ≠ 0 := fun h => (List.count_eq_zero.1 h) hin
    rw [if_neg h1, if_pos (List.count_eq_zero.2 hnot)]
  · intro hin hcmp
    have h1 : G.count (L.val + 97) ≠ 0 := fun h => (List.count_eq_zero.1 h) hin
    have h2 : T.count (L.val + 97) ≠ 0 := by omega
    rw [if_neg h1, if_neg h2, if_pos hcmp]
    exact ⟨rfl, (small_and ⟨G.count (L.val + 97), by omega⟩).1⟩
  · intro hin hcmp
    have h1 : G.count (L.val + 97) ≠ 0 := fun h => (List.count_eq_zero.1 h) hin
    rw [if_neg h1]
    by_cases h2 : T.count (L.val + 97) = 0
    · rw [if_pos h2, h2]
      rfl
    · rw [if_neg h2, if_neg (by omega)]
  · intro hnot
    rw [if_pos (List.count_eq_zero.2 hnot)]

/-- C15 at target "horse" and guess "elite". -/
theorem C15_witness :
    onTarget (fresh (bytes "horse")) (bytes "horse") ∧ lower (bytes "elite") ∧
    ∃ s1 result won, guess (fresh (bytes "horse")) (bytes "elite") =
        (s1, some (result, won)) ∧
      (∀ L : Fin letters,
        (L.val + 97 ∈ bytes "elite" → L.val + 97 ∉ bytes "horse" → s1.counts L = 0x80) ∧
        (L.val + 97 ∈ bytes "elite" →
          (bytes "elite").count (L.val + 97) ≤ (bytes "horse").count (L.val + 97) →
          s1.counts L = (bytes "elite").count (L.val + 97) ∧ s1.counts L &&& 0x80 = 0) ∧
        (L.val + 97 ∈ bytes "elite" →
          (bytes "horse").count (L.val + 97) < (bytes "elite").count (L.val + 97) →
          s1.counts L = 0x80 ||| (bytes "horse").count (L.val + 97)) ∧
        (L.val + 97 ∉ bytes "elite" → s1.counts L = (fresh (bytes "horse")).counts L)) ∧
      s1.target = (fresh (bytes "horse")).target ∧
      s1.targetIndex = (fresh (bytes "horse")).targetIndex :=
  ⟨onTarget_fresh _ (by decide) (by decide), by decide,
    C15_counts_recorded _ (bytes "horse") (bytes "elite")
      (onTarget_fresh _ (by decide) (by decide)) (by decide) (by decide)⟩

/-- C16. Wrong-letter sets are recorded and only grow: for every position `j`, the
wrong-letter set of `j` (the low 26 bits of `clues[j]`) after `guess(G)` is the set before
plus the letter `G[j]` exactly when the clue returned at `j` is not green; so no letter
leaves a wrong-letter set. -/
theorem C16_wrong_letters_grow (s : state) (T G : List Nat) (hs : onTarget s T)
    (hG : lower G) (hlen : G.length = length) :
    ∃ s1 result won, guess s G = (s1, some (result, won)) ∧
      (∀ (j : Fin length) (k : Nat), k < letters →
        ((s1.clues j).testBit k = true ↔
          ((s.clues j).testBit k = true ∨
            (k = letterOf (G.getD j.val 0) ∧ result j ≠ clue.green)))) ∧
      (∀ (j : Fin length) (k : Nat), k < letters →
        (s.clues j).testBit k = true → (s1.clues j).testBit k = true) := by
  have key : ∀ (j : Fin length) (k : Nat), k < letters →
      (((recorded s T G).clues j).testBit k = true ↔
        ((s.clues j).testBit k = true ∨
          (k = letterOf (G.getD j.val 0) ∧ scored T G j ≠ clue.green))) := by
    intro j k hk
    rw [recorded_testBit s T G hG hlen j k (by unfold letters at hk; omega)]
    have hg := scored_green_iff T G hs.2.2.1 hs.2.1 hG hlen j
    have he := letterAt_eq_iff T G hs.2.2.1 hs.2.1 hG hlen j
    simp only [Bool.or_eq_true, Bool.and_eq_true, decide_eq_true_eq, Bool.not_eq_true',
      decide_eq_false_iff_not]
    rw [he, ← hg]
    constructor
    · rintro (h | ⟨h1, h2⟩)
      · exact Or.inl h
      · exact Or.inr ⟨h1.symm, h2⟩
    · rintro (h | ⟨h1, h2⟩)
      · exact Or.inl h
      · exact Or.inr ⟨h1.symm, h2⟩
  refine ⟨_, _, _, guess_eq s T G hs hG hlen, key, ?_⟩
  intro j k hk hb
  exact (key j k hk).2 (Or.inl hb)

/-- C16 at the state after "elite" on target "horse" and the guess "nurse". -/
theorem C16_witness :
    onTarget afterElite (bytes "horse") ∧ lower (bytes "nurse") ∧
    ∃ s1 result won, guess afterElite (bytes "nurse") = (s1, some (result, won)) ∧
      (∀ (j : Fin length) (k : Nat), k < letters →
        ((s1.clues j).testBit k = true ↔
          ((afterElite.clues j).testBit k = true ∨
            (k = letterOf ((bytes "nurse").getD j.val 0) ∧ result j ≠ clue.green)))) ∧
      (∀ (j : Fin length) (k : Nat), k < letters →
        (afterElite.clues j).testBit k = true → (s1.clues j).testBit k = true) :=
  ⟨onTarget_recorded _ _ _ (onTarget_fresh _ (by decide) (by decide)), by decide,
    C16_wrong_letters_grow afterElite (bytes "horse") (bytes "nurse")
      (onTarget_recorded _ _ _ (onTarget_fresh _ (by decide) (by decide)))
      (by decide) (by decide)⟩

/-- C14. The target is never filtered out: for every target `T` of five lowercase letters
and every finite sequence of guesses of five lowercase letters each, hard-mode-legal or not,
the game runs without panic and `hardModeOK(T)` is true in the resulting state. -/
theorem C14_target_always_allowed (T : List Nat) (hT : lower T) (hlen : T.length = length)
    (gs : List (List Nat)) (hgs : allWords gs) :
    ∃ s, game T gs = some s ∧ hardModeOK s T = some true :=
  ⟨_, game_eq T hT hlen gs hgs,
    sound_hardModeOK _ T hT hlen (sound_recordedAll T hT hlen gs _ hgs (sound_fresh T))⟩

/-- C14 at target "horse" after the guesses "elite", "verse", "nurse". -/
theorem C14_witness :
    lower (bytes "horse") ∧ allWords [bytes "elite", bytes "verse", bytes "nurse"] ∧
    ∃ s, game (bytes "horse") [bytes "elite", bytes "verse", bytes "nurse"] = some s ∧
      hardModeOK s (bytes "horse") = some true :=
  ⟨by decide, by unfold allWords; decide,
    C14_target_always_allowed (bytes "horse") (by decide) (by decide)
      [bytes "elite", bytes "verse", bytes "nurse"] (by unfold allWords; decide)⟩

/-- C17. Green facts are consistent and stable. In the state `s` reached from `newState(T)`
by any guesses `gs`, and the state `s2` reached by any further guesses, for every position
`j`: the green field (bits 27 to 31) of `s.clues[j]` is 0 or the code of `T[j]` plus 1; it
is nonzero iff some guess of `gs` had `T[j]` at position `j`; once nonzero it has the same
value in `s2`; and a guess that is green at `j` leaves the 26 wrong-letter bits of
`clues[j]` as they were. -/
theorem C17_green_facts_stable (T : List Nat) (hT : lower T) (hlen : T.length = length)
    (gs more : List (List Nat)) (hgs : allWords gs) (hmore : allWords more) :
    ∃ s s2, game T gs = some s ∧ game T (gs ++ more) = some s2 ∧
      ∀ j : Fin length,
        (s.clues j >>> 27 = 0 ∨ s.clues j >>> 27 = letterOf (T.getD j.val 0) + 1) ∧
        (s.clues j >>> 27 ≠ 0 ↔ ∃ g ∈ gs, g.getD j.val 0 = T.getD j.val 0) ∧
        (s.clues j >>> 27 ≠ 0 → s2.clues j >>> 27 = s.clues j >>> 27) ∧
        (∀ g, lower g → g.length = length →
          ∃ s1 result won, guess s g = (s1, some (result, won)) ∧
            (result j = clue.green →
              s1.clues j >>> 27 = letterOf (T.getD j.val 0) + 1 ∧
              ∀ k, k < letters → (s1.clues j).testBit k = (s.clues j).testBit k)) := by
  have hall : allWords (gs ++ more) := fun w hw =>
    (List.mem_append.1 hw).elim (hgs w) (hmore w)
  have hon := (guesses_eq T gs (fresh T) (onTarget_fresh T hT hlen) hgs).2
  have hs := sound_recordedAll T hT hlen gs _ hgs (sound_fresh T)
  have hs2 := sound_recordedAll T hT hlen (gs ++ more) _ hall (sound_fresh T)
  refine ⟨_, _, game_eq T hT hlen gs hgs, game_eq T hT hlen _ hall, fun j => ⟨?_, ?_, ?_, ?_⟩⟩
  · exact (hs.1 j).2.1
  · rw [green_recordedAll T hT hlen j gs _ hgs (sound_fresh T)]
    constructor
    · rintro (h0 | ⟨g, hg, he⟩)
      · exact absurd (by show (0 : Nat) >>> 27 = 0; simp) h0
      · exact ⟨g, hg, (letterAt_eq_iff T g hT hlen (hgs g hg).1 (hgs g hg).2 j).1 he⟩
    · rintro ⟨g, hg, he⟩
      exact Or.inr ⟨g, hg, (letterAt_eq_iff T g hT hlen (hgs g hg).1 (hgs g hg).2 j).2 he⟩
  · intro hne
    have h3 : (recordedAll (fresh T) T (gs ++ more)).clues j >>> 27 ≠ 0 := by
      rw [recordedAll_append,
        green_recordedAll T hT hlen j more _ hmore hs]
      exact Or.inl hne
    rcases (hs.1 j).2.1 with h0 | h1
    · exact absurd h0 hne
    · rcases (hs2.1 j).2.1 with h4 | h5
      · exact absurd h4 h3
      · rw [h5, h1]
  · intro g hg hglen
    refine ⟨_, _, _, guess_eq _ T g hon hg hglen, ?_⟩
    intro hgreen
    have he : letterAt T j = letterAt g j :=
      (letterAt_eq_iff T g hT hlen hg hglen j).2
        ((scored_green_iff T g hT hlen hg hglen j).1 hgreen)
    constructor
    · rcases ((sound_recorded _ T g hT hlen hg hglen hs).1 j).2.1 with h0 | h1
      · exfalso
        rw [recorded_green _ T g hg hglen j, if_pos he] at h0
        rcases (hs.1 j).2.1 with h6 | h7
        · rw [h6, Nat.zero_or] at h0; omega
        · rw [h7, Nat.or_self] at h0; omega
      · exact h1
    · intro k hk
      rw [recorded_testBit _ T g hg hglen j k (by unfold letters at hk; omega)]
      simp [he]

/-- C17 at target "horse", guesses "elite" and "nurse", then "verse". -/
theorem C17_witness :
    lower (bytes "horse") ∧ allWords [bytes "elite", bytes "nurse"] ∧
    allWords [bytes "verse"] ∧
    ∃ s s2, game (bytes "horse") [bytes "elite", bytes "nurse"] = some s ∧
      game (bytes "horse") ([bytes "elite", bytes "nurse"] ++ [bytes "verse"]) = some s2 ∧
      ∀ j : Fin length,
        (s.clues j >>> 27 = 0 ∨
          s.clues j >>> 27 = letterOf ((bytes "horse").getD j.val 0) + 1) ∧
        (s.clues j >>> 27 ≠ 0 ↔
          ∃ g ∈ [bytes "elite", bytes "nurse"], g.getD j.val 0 = (bytes "horse").getD j.val 0) ∧
        (s.clues j >>> 27 ≠ 0 → s2.clues j >>> 27 = s.clues j >>> 27) ∧
        (∀ g, lower g → g.length = length →
          ∃ s1 result won, guess s g = (s1, some (result, won)) ∧
            (result j = clue.green →
              s1.clues j >>> 27 = letterOf ((bytes "horse").getD j.val 0) + 1 ∧
              ∀ k, k < letters → (s1.clues j).testBit k = (s.clues j).testBit k)) :=
  ⟨by decide, by unfold allWords; decide, by unfold allWords; decide,
    C17_green_facts_stable (bytes "horse") (by decide) (by decide)
      [bytes "elite", bytes "nurse"] [bytes "verse"] (by unfold allWords; decide)
      (by unfold allWords; decide)⟩

/-- C18. A losing guess is never allowed again: on every state of a game on `T`, if
`guess(G)` returns `won = false` then `hardModeOK(G)` is false in the resulting state, and
it is still false after any further guesses. -/
theorem C18_losing_guess_rejected (s : state) (T G : List Nat) (hs : onTarget s T)
    (hG : lower G) (hlen : G.length = length) (gs : List (List Nat)) (hgs : allWords gs) :
    ∃ s1 result won, guess s G = (s1, some (result, won)) ∧
      (won = false →
        hardModeOK s1 G = some false ∧
        ∃ s2, guesses s1 gs = some s2 ∧ hardModeOK s2 G = some false) := by
  refine ⟨_, _, _, guess_eq s T G hs hG hlen, ?_⟩
  intro hlost
  obtain ⟨j, _, hb⟩ := lost_sets_bit s T G hG hlen hlost
  have hk : letterAt G j < 27 := by
    have := letterAt_lt G hG hlen j
    unfold letters at this
    omega
  refine ⟨hardModeOK_of_bit _ G hG hlen j hb, _,
    (guesses_eq T gs _ (onTarget_recorded s T G hs) hgs).1, ?_⟩
  exact hardModeOK_of_bit _ G hG hlen j (testBit_recordedAll T j _ hk gs _ hgs hb)

/-- C18 at target "horse", losing guess "elite", further guesses "nurse" and "verse". -/
theorem C18_witness :
    onTarget (fresh (bytes "horse")) (bytes "horse") ∧ lower (bytes "elite") ∧
    allWords [bytes "nurse", bytes "verse"] ∧
    ∃ s1 result won, guess (fresh (bytes "horse")) (bytes "elite") =
        (s1, some (result, won)) ∧
      (won = false →
        hardModeOK s1 (bytes "elite") = some false ∧
        ∃ s2, guesses s1 [bytes "nurse", bytes "verse"] = some s2 ∧
          hardModeOK s2 (bytes "elite") = some false) :=
  ⟨onTarget_fresh _ (by decide) (by decide), by decide, by unfold allWords; decide,
    C18_losing_guess_rejected _ (bytes "horse") (bytes "elite")
      (onTarget_fresh _ (by decide) (by decide)) (by decide) (by decide)
      [bytes "nurse", bytes "verse"] (by unfold allWords; decide)⟩

/-- C19. `playRandomly` terminates without starving: for every list `valid` of words of
five lowercase letters that holds the target, every sequence of random draws and enough
fuel, the run returns a guess count `i` with 1 <= `i` <= len(valid); the slice `possible`
is non-empty at each of the `i` draws (so `rand.Intn` never gets 0), starts as `valid`, and
is strictly shorter at every draw than at the draw before. -/
theorem C19_playRandomly_terminates (valid : List (List Nat)) (hv : allWords valid)
    (target : List Nat) (ht : target ∈ valid) (rnd : Nat → Nat) (fuel : Nat)
    (hfuel : valid.length ≤ fuel) :
    ∃ i trace, playRandomly valid target rnd fuel = (outcome.returned i, trace) ∧
      1 ≤ i ∧ i ≤ valid.length ∧ trace.length = i ∧ trace.head? = some valid ∧
      (∀ p ∈ trace, p ≠ []) ∧ trace.Chain' (fun a b => b.length < a.length) := by
  have hT := hv target ht
  obtain ⟨i, trace, h1, h2, h3, _, h5, h6, h7, h8⟩ :=
    playLoop_spec rnd target hT.1 hT.2 fuel (fresh target) 1 valid []
      (loopInv_start target hT.1 hT.2 valid hv ht) rfl hfuel
  refine ⟨i, trace, ?_, h2, by omega, by omega, h7, h6, h8⟩
  unfold playRandomly
  rw [newState_eq target hT.1 hT.2]
  exact h1

/-- C19 at a list of six words, target "horse", every draw being 0. -/
theorem C19_witness :
    allWords sampleValid ∧ bytes "horse" ∈ sampleValid ∧
    ∃ i trace, playRandomly sampleValid (bytes "horse") (fun _ => 0) 6 =
        (outcome.returned i, trace) ∧
      1 ≤ i ∧ i ≤ sampleValid.length ∧ trace.length = i ∧
      trace.head? = some sampleValid ∧
      (∀ p ∈ trace, p ≠ []) ∧ trace.Chain' (fun a b => b.length < a.length) :=
  ⟨by unfold allWords; decide, by decide,
    C19_playRandomly_terminates sampleValid (by unfold allWords; decide) (bytes "horse")
      (by decide) (fun _ => 0) 6 (by decide)⟩

/-- C20. The histogram index is always in range: for every list `valid` of words of five
lowercase letters, of any size, that holds the target, and every sequence of random draws,
`playRandomly` returns a guess count of at most 26, so at most 99; hence
`results[target][guesses]++` in `playAll` and `results[guesses] = append(...)` in
`playManyRandomly` do not panic, and each changes the one slot `guesses` and no other. -/
theorem C20_guess_count_in_range (valid : List (List Nat)) (hv : allWords valid)
    (target : List Nat) (ht : target ∈ valid) (rnd : Nat → Nat) (fuel : Nat)
    (hfuel : valid.length ≤ fuel) (r : histogram) (results : Fin 100 → List (List Nat)) :
    ∃ i trace, playRandomly valid target rnd fuel = (outcome.returned i, trace) ∧
      i ≤ 26 ∧ i ≤ 99 ∧
      (∃ r1, bump r i = some r1 ∧
        ∀ k : Fin m, r1 k = if k.val = i then wrapInt (r k + 1) else r k) ∧
      (∃ results1, appendAt results i target = some results1 ∧
        ∀ k : Fin 100, results1 k = if k.val = i then results k ++ [target] else results k) := by
  have hT := hv target ht
  obtain ⟨i, trace, h1, _, _, h4, _, _, _, _⟩ :=
    playLoop_spec rnd target hT.1 hT.2 fuel (fresh target) 1 valid []
      (loopInv_start target hT.1 hT.2 valid hv ht) rfl hfuel
  have hm : i < m := by unfold m; omega
  have h100 : i < 100 := by omega
  refine ⟨i, trace, ?_, h4, by omega, ?_, ?_⟩
  · unfold playRandomly
    rw [newState_eq target hT.1 hT.2]
    exact h1
  · refine ⟨_, by unfold bump; rw [dif_pos hm], ?_⟩
    intro k
    by_cases e : k.val = i
    · have : k = ⟨i, hm⟩ := Fin.ext e
      subst this
      simp
    · have : k ≠ ⟨i, hm⟩ := fun h => e (by rw [h])
      simp [Function.update_noteq this, e]
  · refine ⟨_, by unfold appendAt; rw [dif_pos h100], ?_⟩
    intro k
    by_cases e : k.val = i
    · have : k = ⟨i, h100⟩ := Fin.ext e
      subst this
      simp
    · have : k ≠ ⟨i, h100⟩ := fun h => e (by rw [h])
      simp [Function.update_noteq this, e]

/-- C20 at a list of six words, target "horse", every draw being 0. -/
theorem C20_witness :
    allWords sampleValid ∧ bytes "horse" ∈ sampleValid ∧
    ∃ i trace, playRandomly sampleValid (bytes "horse") (fun _ => 0) 6 =
        (outcome.returned i, trace) ∧
      i ≤ 26 ∧ i ≤ 99 ∧
      (∃ r1, bump sampleHist i = some r1 ∧
        ∀ k : Fin m, r1 k = if k.val = i then wrapInt (sampleHist k + 1) else sampleHist k) ∧
      (∃ results1, appendAt (fun _ => []) i (bytes "horse") = some results1 ∧
        ∀ k : Fin 100, results1 k =
          if k.val = i then (fun _ => []) k ++ [bytes "horse"] else (fun _ => []) k) :=
  ⟨by unfold allWords; decide, by decide,
    C20_guess_count_in_range sampleValid (by unfold allWords; decide) (bytes "horse")
      (by decide) (fun _ => 0) 6 (by decide) sampleHist (fun _ => [])⟩

end Wordle
